import Mathlib

/-
Verification of the cortex ingestion/retrieval pipeline.

Shallow embedding of the Python sources under app/ (text normalization,
link extraction, chunk boundary adjustment, embedding batching, vector
search grouping, the Confluence HTTP retry loop, and the sync
orchestrator's database session behaviour).  Strings are modelled as
List Char; machine floats that are only stored or compared at exact
thresholds are modelled as rationals; wall-clock instants are naturals.
-/

namespace Cortex

/- ===================================================================
   app/utils/text.py : character classes and Python string helpers
   =================================================================== -/

/-- Characters collapsed by the regex [ \t]+ in clean_text. -/
def spTab (c : Char) : Bool := c = ' ' || c = '\t'

/-- The Python whitespace class: regex \s and str.strip with no
arguments (ASCII range). -/
def pyWS (c : Char) : Bool :=
  c = ' ' || c = '\t' || c = '\n' || c = '\r' || c = '\x0b' || c = '\x0c'

/-- Python str.lstrip(). -/
def lstrip (l : List Char) : List Char := l.dropWhile pyWS

/-- Python str.rstrip(). -/
def rstrip (l : List Char) : List Char := (l.reverse.dropWhile pyWS).reverse

/-- Python str.strip(). -/
def pyStrip (l : List Char) : List Char := rstrip (lstrip l)

/-- Python str.strip() on the String wrapper. -/
def pyStripStr (s : String) : String := String.mk (pyStrip s.data)

/-- Python s.split("\n"): the empty string yields one empty line. -/
def splitNl : List Char → List (List Char)
  | [] => [[]]
  | c :: rest =>
    match splitNl rest with
    | [] => [[c]]
    | l :: ls => if c = '\n' then [] :: l :: ls else (c :: l) :: ls

/-- Python "\n".join(lines). -/
def joinNl : List (List Char) → List Char
  | [] => []
  | [l] => l
  | l :: ls => l ++ '\n' :: joinNl ls

/-- clean_text step 1: re.sub(r"[ \t]+", " ", text).  A maximal run of
spaces and tabs becomes a single space. -/
def step1 : List Char → List Char
  | [] => []
  | [c] => if spTab c then [' '] else [c]
  | c1 :: c2 :: rest =>
    if spTab c1 && spTab c2 then step1 (c2 :: rest)
    else if spTab c1 then ' ' :: step1 (c2 :: rest)
    else c1 :: step1 (c2 :: rest)

/-- The suffix of a whitespace run after its last newline. -/
def afterLastNl (run : List Char) : List Char :=
  (run.reverse.takeWhile (fun c => c ≠ '\n')).reverse

/-- The number of characters of l consumed by a match of
\n\s*\n\s*\n+ starting at l (l starts with a newline): everything up to
and including the last newline of the whitespace run at the head of l. -/
def matchLen (l : List Char) : Nat :=
  (l.takeWhile pyWS).length - (afterLastNl (l.takeWhile pyWS)).length

/-- clean_text step 2: re.sub(r"\n\s*\n\s*\n+", "\n\n", text), modelled
by the re module's leftmost scan.  A match can only start at a newline;
with greedy backtracking it then spans the whitespace run at that point
up to its last newline, provided the run holds at least three newlines.
Fuel-driven so that the definition computes by kernel reduction. -/
def step2Go : Nat → List Char → List Char
  | 0, l => l
  | _ + 1, [] => []
  | fuel + 1, c :: rest =>
    if c = '\n' && ((c :: rest).takeWhile pyWS).count '\n' ≥ 3 then
      '\n' :: '\n' :: step2Go fuel ((c :: rest).drop (matchLen (c :: rest)))
    else
      c :: step2Go fuel rest

def step2 (l : List Char) : List Char := step2Go l.length l

/-- clean_text step 3: strip every line and rejoin with newlines. -/
def step3 (l : List Char) : List Char := joinNl ((splitNl l).map pyStrip)

/-- clean_text (app/utils/text.py): collapse space/tab runs, collapse
runs of three or more newlines (with blank padding) to two, strip each
line, strip the whole text. -/
def clean_text (l : List Char) : List Char :=
  if l = [] then [] else pyStrip (step3 (step2 (step1 l)))

/- ===================================================================
   app/utils/text.py : link extraction
   =================================================================== -/

/-- Does pat occur at the head of l? -/
def hasPrefixCh : List Char → List Char → Bool
  | _, [] => true
  | [], _ :: _ => false
  | a :: as, b :: bs => a = b && hasPrefixCh as bs

/-- Does pat occur anywhere in l (Python: pat in l)? -/
def hasSubCh : List Char → List Char → Bool
  | [], pat => pat.isEmpty
  | c :: rest, pat => hasPrefixCh (c :: rest) pat || hasSubCh rest pat

/-- Characters allowed in a URL scheme after the leading letter. -/
def isSchemeChar (c : Char) : Bool :=
  c.isAlphanum || c = '+' || c = '.' || c = '-'

/-- After a valid scheme and its colon, the remainder of the URL;
none when the URL has no scheme. -/
def afterScheme : List Char → Option (List Char)
  | [] => none
  | c :: rest => if c = ':' then some rest
                 else if isSchemeChar c then afterScheme rest
                 else none

/-- urllib.parse.urlparse(url).netloc: drop the scheme if present, then
a leading "//" introduces the authority, read up to /, ? or #. -/
def urlNetloc (url : List Char) : List Char :=
  let rest :=
    match url with
    | c :: tl => if c.isAlpha then (match afterScheme tl with
                                    | some r => r
                                    | none => url)
                 else url
    | [] => []
  if hasPrefixCh rest ['/', '/'] then
    (rest.drop 2).takeWhile (fun c => c ≠ '/' && c ≠ '?' && c ≠ '#')
  else []

/-- urllib.parse.urlparse(url).path: the part after the authority (if
any) up to ? or #. -/
def urlPath (url : List Char) : List Char :=
  let rest :=
    match url with
    | c :: tl => if c.isAlpha then (match afterScheme tl with
                                    | some r => r
                                    | none => url)
                 else url
    | [] => []
  let rest2 :=
    if hasPrefixCh rest ['/', '/'] then
      (rest.drop 2).dropWhile (fun c => c ≠ '/' && c ≠ '?' && c ≠ '#')
    else rest
  rest2.takeWhile (fun c => c ≠ '?' && c ≠ '#')

/-- _determine_link_type (app/utils/text.py): attachment when the URL
starts with "attachment:" or contains "/attachments/"; else internal
when the host is empty or equals the base host and the URL string
contains /wiki/, /pages/ or /spaces/; else external. -/
def determine_link_type (url base_url : List Char) : String :=
  if hasPrefixCh url "attachment:".data || hasSubCh url "/attachments/".data then
    "attachment"
  else if (urlNetloc url = [] || urlNetloc url = urlNetloc base_url)
          && (hasSubCh url "/wiki/".data || hasSubCh url "/pages/".data
              || hasSubCh url "/spaces/".data) then
    "internal"
  else
    "external"

/-- Leftmost occurrence of pat followed by at least one digit; returns
those digits (re.search of pat ++ (\d+)). -/
def pageIdAfterPat : List Char → List Char → Option (List Char)
  | [], _ => none
  | c :: rest, pat =>
    if hasPrefixCh (c :: rest) pat then
      let ds := ((c :: rest).drop pat.length).takeWhile Char.isDigit
      if ds.isEmpty then pageIdAfterPat rest pat else some ds
    else pageIdAfterPat rest pat

/-- Python \w. -/
def isWordChar (c : Char) : Bool := c.isAlphanum || c = '_'

/-- re.search(r"/wiki/spaces/\w+/pages/(\d+)", url). -/
def wikiSpacesPat : List Char → Option (List Char)
  | [] => none
  | c :: rest =>
    if hasPrefixCh (c :: rest) "/wiki/spaces/".data then
      let after := (c :: rest).drop 13
      let w := after.takeWhile isWordChar
      let after2 := after.drop w.length
      if !w.isEmpty && hasPrefixCh after2 "/pages/".data then
        let ds := (after2.drop 7).takeWhile Char.isDigit
        if ds.isEmpty then wikiSpacesPat rest else some ds
      else wikiSpacesPat rest
    else wikiSpacesPat rest

/-- _extract_page_id_from_url: match pageId=(\d+), then /pages/(\d+),
then /wiki/spaces/\w+/pages/(\d+). -/
def extract_page_id_from_url (url : List Char) : Option (List Char) :=
  match pageIdAfterPat url "pageId=".data with
  | some ds => some ds
  | none =>
    match pageIdAfterPat url "/pages/".data with
    | some ds => some ds
    | none => wikiSpacesPat url

/-- ParsedLink (app/utils/text.py). -/
structure ParsedLink where
  url : List Char
  text : List Char
  link_type : String
  page_id : Option (List Char)
deriving DecidableEq

/-- _parse_html_link: drop empty/anchor/javascript hrefs, classify,
extract the page id for internal links, drop self links; empty anchor
text falls back to the href. -/
def parse_html_link (href text base_url current_page_id : List Char) :
    Option ParsedLink :=
  if href.isEmpty || hasPrefixCh href ['#'] then none
  else if hasPrefixCh href "javascript:".data then none
  else
    let lt := determine_link_type href base_url
    let pid := if lt = "internal" then extract_page_id_from_url href else none
    match pid with
    | some p =>
      if p = current_page_id then none
      else some ⟨href, if text.isEmpty then href else text, lt, some p⟩
    | none => some ⟨href, if text.isEmpty then href else text, lt, none⟩

/-- The URL-based deduplication at the end of extract_links: keep the
first link for each URL. -/
def dedupByUrl : List (List Char) → List ParsedLink → List ParsedLink
  | _, [] => []
  | seen, l :: ls =>
    if l.url ∈ seen then dedupByUrl seen ls
    else l :: dedupByUrl (l.url :: seen) ls

/-- extract_links (app/utils/text.py), restricted to the standard
<a href> branch: each anchor is a (href, text) pair; ac:link elements
are not modelled (the claims only concern _parse_html_link,
_determine_link_type and the dedup step). -/
def extract_links (atags : List (List Char × List Char))
    (base_url current_page_id : List Char) : List ParsedLink :=
  dedupByUrl []
    (atags.filterMap (fun a => parse_html_link a.1 a.2 base_url current_page_id))

/-- Modelled from the claim's wording, for comparison only: internal
when the base-host URL's path contains /wiki/, /pages/ or /spaces/;
attachment when the URL starts with attachment: or contains
/attachments/; any other URL external. -/
def link_type_claimed (url base_url : List Char) : String :=
  if (urlNetloc url = [] || urlNetloc url = urlNetloc base_url)
      && (hasSubCh (urlPath url) "/wiki/".data || hasSubCh (urlPath url) "/pages/".data
          || hasSubCh (urlPath url) "/spaces/".data) then
    "internal"
  else if hasPrefixCh url "attachment:".data || hasSubCh url "/attachments/".data then
    "attachment"
  else
    "external"

/-- The amended classification rule, stated independently: the
attachment test comes first and the internal test reads the whole URL
string, not just its path. -/
def link_type_amended (url base_url : List Char) : String :=
  if hasPrefixCh url "attachment:".data || hasSubCh url "/attachments/".data then
    "attachment"
  else
    let sameHost := urlNetloc url = [] || urlNetloc url = urlNetloc base_url
    let marker := ["/wiki/".data, "/pages/".data, "/spaces/".data].any
      (fun p => hasSubCh url p)
    if sameHost && marker then "internal" else "external"

/- ===================================================================
   app/ingest/chunker.py : sentence-boundary adjustment
   =================================================================== -/

/-- Python str.rfind for a two-character pattern: the greatest index i
with l[i] = c1 and l[i+1] = c2. -/
def rfind2Go : List Char → Char → Char → Nat → Option Nat → Option Nat
  | [], _, _, _, acc => acc
  | [_], _, _, _, acc => acc
  | a :: b :: rest, c1, c2, i, acc =>
    rfind2Go (b :: rest) c1 c2 (i + 1) (if a = c1 && b = c2 then some i else acc)

def rfind2 (l : List Char) (c1 c2 : Char) : Option Nat :=
  rfind2Go l c1 c2 0 none

/-- Python str.rfind for one character: the greatest index holding c. -/
def rfind1Go : List Char → Char → Nat → Option Nat → Option Nat
  | [], _, _, acc => acc
  | a :: rest, c, i, acc => rfind1Go rest c (i + 1) (if a = c then some i else acc)

def rfind1 (l : List Char) (c : Char) : Option Nat :=
  rfind1Go l c 0 none

/-- The ordered list of sentence endings tried by
_adjust_to_sentence_boundary. -/
def sentence_endings : List (Char × Char) :=
  [('.', ' '), ('.', '\n'), ('?', ' '), ('?', '\n'), ('!', ' '), ('!', '\n')]

/-- The loop over sentence_endings: take the first ending whose last
occurrence sits strictly past half of the text (and not at index 0) and
stop there.  idx > len * 0.5 on integers is exactly 2 * idx > len. -/
def bestEndBoundary : List (Char × Char) → List Char → Option Nat
  | [], _ => none
  | e :: es, l =>
    match rfind2 l e.1 e.2 with
    | some idx => if 0 < idx && 2 * idx > l.length then some (idx + 1)
                  else bestEndBoundary es l
    | none => bestEndBoundary es l

/-- _adjust_to_sentence_boundary (app/ingest/chunker.py).  When no
ending qualifies, fall back to the last space character before the
final position if it sits strictly past 80% of the text
(idx > len * 0.8 on integers is exactly 5 * idx > 4 * len); keep the
text whole otherwise. -/
def adjust_to_sentence_boundary (chunk_text : List Char) : List Char :=
  match bestEndBoundary sentence_endings chunk_text with
  | some e => chunk_text.take e
  | none =>
    match rfind1 chunk_text.dropLast ' ' with
    | some i => if 5 * i > 4 * chunk_text.length then chunk_text.take i
                else chunk_text
    | none => chunk_text

/-- Modelled from the claim's wording, for comparison only: shrink to
the last sentence boundary of any kind past 50% of the text, else to
the last whitespace past 80%, else keep the window whole. -/
def adjust_claimed (chunk_text : List Char) : List Char :=
  let cands := sentence_endings.filterMap (fun e =>
    match rfind2 chunk_text e.1 e.2 with
    | some idx => if 2 * idx > chunk_text.length then some idx else none
    | none => none)
  match cands.max? with
  | some idx => chunk_text.take (idx + 1)
  | none =>
    let ws := (List.range chunk_text.length).filter (fun i =>
      pyWS (chunk_text.getD i ' ') && 5 * i > 4 * chunk_text.length)
    match ws.max? with
    | some i => chunk_text.take i
    | none => chunk_text

/-- The amended shrink rule, stated independently of the transliterated
loop: the first qualifying ending in the fixed order wins. -/
def adjust_amended (chunk_text : List Char) : List Char :=
  match sentence_endings.findSome? (fun e =>
      match rfind2 chunk_text e.1 e.2 with
      | some idx => if 0 < idx && 2 * idx > chunk_text.length then some (idx + 1)
                    else none
      | none => none) with
  | some e => chunk_text.take e
  | none =>
    match rfind1 chunk_text.dropLast ' ' with
    | some i => if 5 * i > 4 * chunk_text.length then chunk_text.take i
                else chunk_text
    | none => chunk_text

/- ===================================================================
   app/ingest/embedder.py : batched embedding
   =================================================================== -/

/-- A vector of floats, modelled over the rationals. -/
abbrev Vec := List ℚ

/-- The zero vector [0.0] * dimensions. -/
def zeroVec (dim : Nat) : Vec := List.replicate dim 0

/-- Split into consecutive slices of at most n elements
(range(0, len, n) slicing in embed_texts). -/
def chunksOfGo (n : Nat) : Nat → List α → List (List α)
  | 0, _ => []
  | _ + 1, [] => []
  | fuel + 1, c :: t => (c :: t).take n :: chunksOfGo n fuel ((c :: t).drop n)

def chunksOf (n : Nat) (l : List α) : List (List α) :=
  chunksOfGo n l.length l

/-- The (index, stripped text) pairs for the inputs of ts that are
neither empty nor whitespace-only, indices counted from k. -/
def stripPairsFrom (k : Nat) (ts : List String) : List (Nat × String) :=
  ((ts.enumFrom k).filter (fun p => pyStripStr p.2 ≠ "")).map
    (fun p => (p.1, pyStripStr p.2))

/-- The (index, stripped text) pairs for non-empty inputs kept by
embed_texts (Python: if text and text.strip(), over enumerate(texts)). -/
def validPairs (texts : List String) : List (Nat × String) :=
  stripPairsFrom 0 texts

/-- The batches of at most max_batch_size = 100 pairs sent to the
embedding API by embed_texts. -/
def embedBatches (texts : List String) : List (List (Nat × String)) :=
  chunksOf 100 (validPairs texts)

/-- Embedder.embed_texts (app/ingest/embedder.py), with the remote
call abstracted as api: empty and whitespace-only inputs are skipped,
the remaining stripped texts go out in batches of at most 100, results
are re-aligned by index and missing positions become zero vectors. -/
def embed_texts (dim : Nat) (api : List String → List Vec)
    (texts : List String) : List Vec :=
  if texts.isEmpty then []
  else if (validPairs texts).isEmpty then
    List.replicate texts.length (zeroVec dim)
  else
    let all := ((embedBatches texts).map
      (fun b => List.zip (b.map Prod.fst) (api (b.map Prod.snd)))).flatten
    (List.range texts.length).map (fun i => ((all.lookup i).getD (zeroVec dim)))

/- ===================================================================
   app/db/vector_store.py : search result grouping
   =================================================================== -/

/-- SearchResult (app/db/vector_store.py): one retrieved chunk row. -/
structure SearchResult where
  chunk_id : String
  page_id : String
  space_key : String
  title : String
  url : String
  heading_path : Option String
  text : String
  score : ℚ
deriving DecidableEq

/-- PageSearchResult (app/db/vector_store.py): one grouped page hit. -/
structure PageSearchResult where
  page_id : String
  space_key : String
  title : String
  url : String
  score : ℚ
  snippets : List String
  chunk_count : Nat
deriving DecidableEq

/-- chunk.text[:300]. -/
def take300 (s : String) : String := String.mk (s.data.take 300)

/-- Folding one chunk row into the page dictionary of _group_by_page:
update the existing entry (append a snippet while fewer than 3, bump
chunk_count, raise the score) or append a fresh entry. -/
def groupStep (d : List (String × PageSearchResult)) (c : SearchResult) :
    List (String × PageSearchResult) :=
  if (d.map Prod.fst).contains c.page_id then
    d.map (fun kp =>
      if kp.1 = c.page_id then
        (kp.1,
          { kp.2 with
            snippets := if kp.2.snippets.length < 3
                        then kp.2.snippets ++ [take300 c.text]
                        else kp.2.snippets
            chunk_count := kp.2.chunk_count + 1
            score := if kp.2.score < c.score then c.score else kp.2.score })
      else kp)
  else
    d ++ [(c.page_id, ⟨c.page_id, c.space_key, c.title, c.url, c.score,
                       [take300 c.text], 1⟩)]

/-- Descending stable order on scores used by sorted(..., reverse=True). -/
def byScoreDesc (a b : PageSearchResult) : Bool := b.score ≤ a.score

/-- _group_by_page (app/db/vector_store.py): group chunk hits by page
id in first-seen order, then sort pages by score descending and keep
the first max_pages. -/
def group_by_page (chunks : List SearchResult) (max_pages : Nat) :
    List PageSearchResult :=
  (((chunks.foldl groupStep []).map Prod.snd).mergeSort byScoreDesc).take max_pages

/-- vector_search (app/db/vector_store.py) downstream of the SQL query:
rows is the list of at most top_k nearest chunk rows returned by the
database in distance order; rows scoring below min_score are dropped,
the rest are grouped per page. -/
def vector_search (rows : List SearchResult) (min_score : ℚ)
    (max_pages : Nat) : List PageSearchResult :=
  group_by_page (rows.filter (fun r => min_score ≤ r.score)) max_pages

/-- The scores of the kept chunk rows belonging to one page. -/
def pageScores (pid : String) (chunks : List SearchResult) : List ℚ :=
  (chunks.filter (fun c => c.page_id = pid)).map SearchResult.score

/- ===================================================================
   app/confluence/client.py : request retry loop
   =================================================================== -/

/-- One scripted upstream answer to an HTTP request. -/
inductive HttpResp where
  | ok (payload : Nat)
  | rateLimited (retryAfter : Option Nat)
  | httpError (code : Nat)
  | transportError
deriving DecidableEq

/-- The retry loop of _raw_request (app/confluence/client.py).
remaining counts loop iterations left (for attempt in range(retries)),
attempt the current index (used by the 2 ** attempt backoff), slept the
accumulated sleep in seconds.  Status 429 sleeps the Retry-After header
(default 60) and continues the loop; 5xx and transport errors sleep
2 ** attempt and continue; other status codes raise at once; an
exhausted loop raises. -/
def rawRequestGo : Nat → Nat → Nat → List HttpResp → Option Nat × Nat
  | 0, _, slept, _ => (none, slept)
  | _ + 1, _, slept, [] => (none, slept)
  | remaining + 1, attempt, slept, r :: rest =>
    match r with
    | .ok p => (some p, slept)
    | .rateLimited ra => rawRequestGo remaining (attempt + 1) (slept + ra.getD 60) rest
    | .httpError code =>
      if 500 ≤ code then rawRequestGo remaining (attempt + 1) (slept + 2 ^ attempt) rest
      else (none, slept)
    | .transportError => rawRequestGo remaining (attempt + 1) (slept + 2 ^ attempt) rest

/-- _raw_request with its default retries = 3, against a response
script; yields the returned payload (none when the call raises) and the
total time slept. -/
def raw_request (retries : Nat) (script : List HttpResp) : Option Nat × Nat :=
  rawRequestGo retries 0 0 script

/-- Modelled from the claim's wording, for comparison only: the same
loop except that a 429 response does not consume one of the retry
attempts. -/
def rawRequestClaimGo : Nat → Nat → Nat → List HttpResp → Option Nat × Nat
  | _, _, slept, [] => (none, slept)
  | 0, _, slept, _ :: _ => (none, slept)
  | remaining + 1, attempt, slept, r :: rest =>
    match r with
    | .ok p => (some p, slept)
    | .rateLimited ra => rawRequestClaimGo (remaining + 1) attempt (slept + ra.getD 60) rest
    | .httpError code =>
      if 500 ≤ code then rawRequestClaimGo remaining (attempt + 1) (slept + 2 ^ attempt) rest
      else (none, slept)
    | .transportError => rawRequestClaimGo remaining (attempt + 1) (slept + 2 ^ attempt) rest

def raw_request_claimed (retries : Nat) (script : List HttpResp) : Option Nat × Nat :=
  rawRequestClaimGo retries 0 0 script

/- ===================================================================
   app/ingest/sync.py : sync state commit
   =================================================================== -/

/-- The counters of SyncManager.stats consumed by _update_sync_state. -/
structure SyncStats where
  pages_synced : Nat
  chunks_created : Nat
  spaces_synced : Nat
deriving DecidableEq

/-- The sync_state singleton row (app/db/models.py). -/
structure SyncState where
  last_run_at : Option Nat
  last_run_success : Bool
  last_error : Option String
  pages_synced : Nat
  chunks_created : Nat
  spaces_synced : Nat
deriving DecidableEq

/-- SyncManager._update_sync_state (app/ingest/sync.py): last_run_at is
set to the current wall time on every call, success and failure alike;
success, error and the counters are overwritten; the session commits. -/
def update_sync_state (st : SyncState) (stats : SyncStats) (now : Nat)
    (success : Bool) (error : Option String) : SyncState :=
  { st with
    last_run_at := some now
    last_run_success := success
    last_error := error
    pages_synced := stats.pages_synced
    chunks_created := stats.chunks_created
    spaces_synced := stats.spaces_synced }

/-- The except branch of run_full_sync / run_incremental_sync: on an
overall failure the orchestrator opens a fresh session and commits
_update_sync_state(db, success=False, error=str(e)). -/
def commit_failed_run (st : SyncState) (stats : SyncStats) (now : Nat)
    (err : String) : SyncState :=
  update_sync_state st stats now false (some err)

/- ===================================================================
   app/ingest/sync.py : per-page processing over the shared session
   =================================================================== -/

/-- A page as returned by the Confluence client. -/
structure ConfluencePage where
  page_id : String
  space_key : String
  title : String
  url : String
  body_html : String
  version : Nat
  updated_at : Nat
deriving DecidableEq

/-- A row of the pages table. -/
structure PageRow where
  page_id : String
  space_key : String
  title : String
  url : String
  body_text : String
  version : Nat
  updated_at : Nat
  synced_at : Nat
deriving DecidableEq

/-- A link extracted from a page body (String-level view used by the
sync orchestrator). -/
structure ParsedLinkS where
  url : String
  text : String
  link_type : String
  page_id : Option String
deriving DecidableEq

/-- A row of the chunks table; chunk_id models the freshly minted
uuid4 values with a counter. -/
structure ChunkRow where
  chunk_id : Nat
  page_id : String
  space_key : String
  heading_path : Option String
  chunk_index : Nat
  text : String
  token_count : Nat
  embedding : Vec
deriving DecidableEq

/-- A row of the page_links table. -/
structure LinkRow where
  from_page_id : String
  to_page_id : Option String
  to_url : String
  link_text : Option String
  link_type : String
deriving DecidableEq

/-- A chunk produced by TextChunker.chunk_text. -/
structure TextChunk where
  text : String
  heading_path : Option String
  chunk_index : Nat
  token_count : Nat
deriving DecidableEq

/-- A database state: the three tables touched by Process-Page, plus
the uuid counter. -/
structure DBState where
  pages : List PageRow
  chunks : List ChunkRow
  links : List LinkRow
  next_id : Nat
deriving DecidableEq

/-- A SQLAlchemy session: the committed database state and the pending
in-transaction state the session sees.  commit publishes pending;
rollback discards it. -/
structure Session where
  committed : DBState
  pending : DBState
deriving DecidableEq

def Session.commit (s : Session) : Session := ⟨s.pending, s.pending⟩

/-- The components the orchestrator calls out to, passed explicitly:
the HTML normalizer, link extractor and chunker are pure, the embedder
may raise (none). -/
structure SyncEnv where
  html_to_text : String → String
  extr_links : String → String → String → List ParsedLinkS
  chunk_text : String → List TextChunk
  embed_texts : List String → Option (List Vec)
  base_url : String

/-- Mutable per-run statistics of SyncManager. -/
structure Stats where
  spaces_synced : Nat
  pages_synced : Nat
  pages_skipped : Nat
  chunks_created : Nat
  links_created : Nat
  errors : List String
deriving DecidableEq

/-- db.query(Page).filter(Page.page_id == pid).first(). -/
def queryPage (db : DBState) (pid : String) : Option PageRow :=
  db.pages.find? (fun p => p.page_id = pid)

/-- Write the page row: update the existing row in place or add a new
one (the upsert of _process_page followed by db.flush()). -/
def upsertPage (db : DBState) (cp : ConfluencePage) (body_text : String)
    (now : Nat) (existing : Bool) : DBState :=
  if existing then
    { db with pages := db.pages.map (fun p =>
        if p.page_id = cp.page_id then
          { p with title := cp.title, url := cp.url, body_text := body_text,
                   version := cp.version, updated_at := cp.updated_at,
                   synced_at := now }
        else p) }
  else
    { db with pages := db.pages ++
        [⟨cp.page_id, cp.space_key, cp.title, cp.url, body_text,
          cp.version, cp.updated_at, now⟩] }

/-- SyncManager._process_links: delete the outgoing rows of the page,
extract links from the raw body, insert one row per link (link_text
truncated to 500 characters, empty text stored as NULL), counting each
in stats.links_created. -/
def process_links (env : SyncEnv) (db : DBState) (stats : Stats)
    (cp : ConfluencePage) : DBState × Stats :=
  let db1 := { db with links := db.links.filter (fun l => l.from_page_id ≠ cp.page_id) }
  let links := env.extr_links cp.body_html env.base_url cp.page_id
  let rows := links.map (fun l =>
    LinkRow.mk cp.page_id l.page_id l.url
      (if l.text = "" then none else some (String.mk (l.text.data.take 500)))
      l.link_type)
  ({ db1 with links := db1.links ++ rows },
   { stats with links_created := stats.links_created + links.length })

/-- SyncManager._create_chunks: an empty or whitespace-only body
returns at once (before the delete); otherwise the page's chunks are
deleted, the body is chunked, and the batch-embedded chunks are
inserted.  The result is the session state on return, or on the error
path the session state at the moment the embedder raised. -/
def create_chunks (env : SyncEnv) (db : DBState) (stats : Stats)
    (page_id space_key body_text : String) :
    Except (DBState × Stats) (DBState × Stats) :=
  if body_text = "" || pyStripStr body_text = "" then .ok (db, stats)
  else
    let db1 := { db with chunks := db.chunks.filter (fun c => c.page_id ≠ page_id) }
    let chunks := env.chunk_text body_text
    if chunks.isEmpty then .ok (db1, stats)
    else
      match env.embed_texts (chunks.map TextChunk.text) with
      | none => .error (db1, stats)
      | some embeddings =>
        let pairs := List.zip chunks embeddings
        let rows := (pairs.enum).map (fun ie =>
          ChunkRow.mk (db1.next_id + ie.1) page_id space_key
            ie.2.1.heading_path ie.2.1.chunk_index ie.2.1.text
            ie.2.1.token_count ie.2.2)
        .ok ({ db1 with chunks := db1.chunks ++ rows,
                        next_id := db1.next_id + pairs.length },
             { stats with chunks_created := stats.chunks_created + pairs.length })

/-- SyncManager._process_page: skip when the stored version is not
older; otherwise normalize the body, upsert the page, replace the
links, replace the chunks, bump pages_synced and commit.  On an
embedding error the exception propagates: the session keeps its
partially mutated pending state and nothing is rolled back. -/
def process_page (env : SyncEnv) (now : Nat) (s : Session) (stats : Stats)
    (cp : ConfluencePage) : Session × Stats × Option String :=
  match queryPage s.pending cp.page_id with
  | some existing =>
    if cp.version ≤ existing.version then
      (s, { stats with pages_skipped := stats.pages_skipped + 1 }, none)
    else
      let body_text := env.html_to_text cp.body_html
      let db1 := upsertPage s.pending cp body_text now true
      let (db2, stats2) := process_links env db1 stats cp
      match create_chunks env db2 stats2 cp.page_id cp.space_key body_text with
      | .error (db3, stats3) => (⟨s.committed, db3⟩, stats3, some "embed")
      | .ok (db3, stats3) =>
        (Session.commit ⟨s.committed, db3⟩,
         { stats3 with pages_synced := stats3.pages_synced + 1 }, none)
  | none =>
    let body_text := env.html_to_text cp.body_html
    let db1 := upsertPage s.pending cp body_text now false
    let (db2, stats2) := process_links env db1 stats cp
    match create_chunks env db2 stats2 cp.page_id cp.space_key body_text with
    | .error (db3, stats3) => (⟨s.committed, db3⟩, stats3, some "embed")
    | .ok (db3, stats3) =>
      (Session.commit ⟨s.committed, db3⟩,
       { stats3 with pages_synced := stats3.pages_synced + 1 }, none)

/-- The error message recorded by the per-page loops of _sync_space and
run_incremental_sync. -/
def pageErrMsg (pid e : String) : String :=
  "Page sync error (" ++ pid ++ "): " ++ e

/-- The per-page loop (_sync_space, run_incremental_sync): a page whose
processing raises has its id recorded in stats.errors and the loop
continues with the same session, without any rollback. -/
def sync_pages_loop (env : SyncEnv) (now : Nat) :
    Session → Stats → List ConfluencePage → Session × Stats
  | s, stats, [] => (s, stats)
  | s, stats, cp :: rest =>
    match process_page env now s stats cp with
    | (s1, stats1, none) => sync_pages_loop env now s1 stats1 rest
    | (s1, stats1, some e) =>
      sync_pages_loop env now s1
        { stats1 with errors := stats1.errors ++ [pageErrMsg cp.page_id e] } rest

/- ===================================================================
   Concrete fixtures used by witnesses and counterexamples
   =================================================================== -/

/-- A normalizer that produces an empty body for every page. -/
def envEmptyBody : SyncEnv :=
  ⟨fun _ => "", fun _ _ _ => [], fun _ => [],
   fun ts => some (ts.map (fun _ => [])), "https://w"⟩

/-- Identity normalizer, one chunk per body, an embedder that raises on
the body "FAIL". -/
def envFailEmbed : SyncEnv :=
  ⟨fun b => b, fun _ _ _ => [], fun s => [⟨s, none, 0, 3⟩],
   fun ts => if ts.contains "FAIL" then none else some (ts.map (fun _ => [1])),
   "https://w"⟩

/-- Identity normalizer with one link and one chunk per body. -/
def envOneChunk : SyncEnv :=
  ⟨fun b => b, fun _ _ _ => [⟨"u1", "t1", "external", none⟩],
   fun s => [⟨s, none, 0, 3⟩],
   fun ts => some (ts.map (fun _ => [1, 2])), "https://w"⟩

def pageA1 : PageRow := ⟨"A", "SP", "tA", "uA", "old body", 1, 10, 10⟩

def chunkA : ChunkRow := ⟨0, "A", "SP", none, 0, "old chunk", 2, [1]⟩

def db0 : DBState := ⟨[pageA1], [chunkA], [], 1⟩

def sess0 : Session := ⟨db0, db0⟩

def cpA2 : ConfluencePage := ⟨"A", "SP", "tA2", "uA2", "FAIL", 2, 20⟩

def cpA2ok : ConfluencePage := ⟨"A", "SP", "tA2", "uA2", "new body", 2, 20⟩

def cpA1 : ConfluencePage := ⟨"A", "SP", "tA1", "uA1", "other", 1, 20⟩

def cpB1 : ConfluencePage := ⟨"B", "SP", "tB", "uB", "bodyB", 1, 20⟩

def stats0 : Stats := ⟨0, 0, 0, 0, 0, []⟩

/- ===================================================================
   Sliding-window predicates used to characterize clean_text output
   =================================================================== -/

/-- Every adjacent pair of characters satisfies f. -/
def pairsOK (f : Char → Char → Bool) : List Char → Bool
  | [] => true
  | [_] => true
  | a :: b :: rest => f a b && pairsOK f (b :: rest)

/-- Every window of three consecutive characters satisfies f. -/
def triplesOK (f : Char → Char → Char → Bool) : List Char → Bool
  | a :: b :: c :: rest => f a b c && triplesOK f (b :: c :: rest)
  | _ => true

/-- Not both characters are spaces or tabs. -/
def spPairOK (a b : Char) : Bool := !(spTab a && spTab b)

/-- Fixed points of clean_text step 1: no tab anywhere and no two
adjacent space/tab characters. -/
def step1Fixed (l : List Char) : Bool :=
  l.all (fun c => !(c = '\t')) && pairsOK spPairOK l

/-- No non-newline whitespace sits immediately before or after a
newline. -/
def wsPadOK (a b : Char) : Bool :=
  !(a = '\n' && (pyWS b && !(b = '\n'))) && !((pyWS a && !(a = '\n')) && b = '\n')

def noWsPad (l : List Char) : Bool := pairsOK wsPadOK l

/-- The window is not three newlines. -/
def nlTriple (a b c : Char) : Bool := !(a = '\n' && b = '\n' && c = '\n')

def noTripleNl (l : List Char) : Bool := triplesOK nlTriple l

/-- Fixed points of clean_text step 2: at every newline, the
whitespace run there carries fewer than three newlines. -/
def step2Fixed : List Char → Bool
  | [] => true
  | c :: rest =>
    (!(c = '\n') || ((c :: rest).takeWhile pyWS).count '\n' < 3) && step2Fixed rest

/-- The first character, when present, is a newline or not whitespace. -/
def headOK : List Char → Bool
  | [] => true
  | c :: _ => !(pyWS c) || c = '\n'

/-- The last character, when present, is a newline or not whitespace. -/
def lastOK (l : List Char) : Bool :=
  match l.getLast? with
  | none => true
  | some c => !(pyWS c) || c = '\n'

/-- The number of leading newlines. -/
def leadNl (l : List Char) : Nat := (l.takeWhile (fun c => c = '\n')).length

/-- The line-splitting predicate of step 3. -/
def notNl (c : Char) : Bool := !(c = '\n')

/-- The invariant of the page dictionary while _group_by_page folds
over the chunk hits: keys are distinct, a missing key has no processed
chunk, and each entry keys its page, carries the maximum processed
score of that page, and holds at most 3 snippets of at most 300
characters. -/
def GroupInv (processed : List SearchResult)
    (d : List (String × PageSearchResult)) : Prop :=
  (d.map Prod.fst).Nodup ∧
  (∀ k, k ∉ d.map Prod.fst → pageScores k processed = []) ∧
  ∀ kp ∈ d, kp.2.page_id = kp.1 ∧
    kp.2.score ∈ pageScores kp.1 processed ∧
    (∀ x ∈ pageScores kp.1 processed, x ≤ kp.2.score) ∧
    kp.2.snippets.length ≤ 3 ∧ ∀ sn ∈ kp.2.snippets, sn.length ≤ 300

/- ===================================================================
   Theorems
   =================================================================== -/

/-- C1, counterexample: a failed run over a state whose watermark was 5
commits last_run_success = false and last_error as claimed, but moves
last_run_at to the failure time 9 instead of leaving it at 5. -/
theorem spec_C1_counterexample :
    (commit_failed_run ⟨some 5, true, none, 0, 0, 0⟩ ⟨0, 0, 0⟩ 9 "boom").last_run_success = false ∧
    (commit_failed_run ⟨some 5, true, none, 0, 0, 0⟩ ⟨0, 0, 0⟩ 9 "boom").last_error = some "boom" ∧
    (commit_failed_run ⟨some 5, true, none, 0, 0, 0⟩ ⟨0, 0, 0⟩ 9 "boom").last_run_at = some 9 ∧
    (commit_failed_run ⟨some 5, true, none, 0, 0, 0⟩ ⟨0, 0, 0⟩ 9 "boom").last_run_at ≠ some 5 := by
  refine ⟨rfl, rfl, rfl, ?_⟩
  decide

/-- C1, amended: a sync run that fails overall commits a SyncState with
last_run_success = false and last_error set, but last_run_at is
overwritten with the wall time at which the failure was recorded: the
watermark advances even on failure, so the next incremental run does
not re-cover the failed window. -/
theorem spec_C1_failed_run_state (st : SyncState) (stats : SyncStats)
    (now : Nat) (err : String) :
    (commit_failed_run st stats now err).last_run_success = false ∧
    (commit_failed_run st stats now err).last_error = some err ∧
    (commit_failed_run st stats now err).last_run_at = some now :=
  ⟨rfl, rfl, rfl⟩

/-- C3, counterexample: three consecutive 429 answers followed by a 200
exhaust the 3-attempt budget and the call raises, while under the
claimed no-attempt-consumed semantics it would return the 200 payload;
each Retry-After second was slept either way. -/
theorem spec_C3_counterexample :
    raw_request 3 [.rateLimited (some 1), .rateLimited (some 1),
                   .rateLimited (some 1), .ok 7] = (none, 3) ∧
    raw_request_claimed 3 [.rateLimited (some 1), .rateLimited (some 1),
                           .rateLimited (some 1), .ok 7] = (some 7, 3) ∧
    (none : Option Nat) ≠ some 7 := by
  refine ⟨rfl, rfl, ?_⟩
  decide

/-- C3, amended: on HTTP 429 the client sleeps the Retry-After duration
and retries, but the retry consumes one of the 3 attempts; a request
answered 429 then 200 returns the 200 payload after sleeping the full
Retry-After duration provided an attempt remains. -/
theorem spec_C3_rate_limit_retry (ra p : Nat) (rest : List HttpResp)
    (remaining attempt slept : Nat) (script : List HttpResp) :
    raw_request 3 (.rateLimited (some ra) :: .ok p :: rest) = (some p, ra) ∧
    rawRequestGo (remaining + 1) attempt slept (.rateLimited (some ra) :: script) =
      rawRequestGo remaining (attempt + 1) (slept + ra) script :=
  ⟨by simp [raw_request, rawRequestGo], rfl⟩

/-- C8, counterexample: in "aaaaaaaaaaaa. bbbb? cc" both ". " (index
12) and "? " (index 18) lie strictly past 50% of the 22 characters; the
last sentence boundary is the "? ", but the code stops at the first
qualifying pattern in its fixed order and cuts at the ". ". -/
theorem spec_C8_counterexample :
    adjust_to_sentence_boundary "aaaaaaaaaaaa. bbbb? cc".data =
      "aaaaaaaaaaaa.".data ∧
    adjust_claimed "aaaaaaaaaaaa. bbbb? cc".data =
      "aaaaaaaaaaaa. bbbb?".data ∧
    "aaaaaaaaaaaa.".data ≠ "aaaaaaaaaaaa. bbbb?".data := by
  refine ⟨by decide, by decide, by decide⟩

/-- C8, amended: an over-long window is shrunk at the last occurrence
of the first pattern, in the fixed order ". ", ".\n", "? ", "?\n",
"! ", "!\n", whose last occurrence lies strictly past 50% of the window
(and not at index 0), keeping the punctuation mark; if no pattern
qualifies it is shrunk at the last space character (space only,
excluding the final position) when that lies strictly past 80% of the
window; otherwise the window is emitted unshrunk. -/
theorem spec_C8_boundary_adjustment (l : List Char) :
    adjust_to_sentence_boundary l = adjust_amended l := by
  have h : ∀ es : List (Char × Char), bestEndBoundary es l =
      es.findSome? (fun e =>
        match rfind2 l e.1 e.2 with
        | some idx => if 0 < idx && 2 * idx > l.length then some (idx + 1)
                      else none
        | none => none) := by
    intro es
    induction es with
    | nil => rfl
    | cons e es ih =>
      simp only [bestEndBoundary, List.findSome?]
      cases hr : rfind2 l e.1 e.2 with
      | none => simpa using ih
      | some idx =>
        by_cases hc : 0 < idx && 2 * idx > l.length
        · simp [hc]
        · simpa [hc] using ih
  unfold adjust_to_sentence_boundary adjust_amended
  rw [h]

/-- The deduplication pass keeps pairwise distinct URLs, none of them
previously seen. -/
theorem dedupByUrl_nodup (ls : List ParsedLink) : ∀ seen : List (List Char),
    ((dedupByUrl seen ls).map ParsedLink.url).Nodup ∧
    ∀ u ∈ (dedupByUrl seen ls).map ParsedLink.url, u ∉ seen := by
  induction ls with
  | nil => intro seen; simp [dedupByUrl]
  | cons l ls ih =>
    intro seen
    by_cases hmem : l.url ∈ seen
    · simpa [dedupByUrl, hmem] using ih seen
    · have h2 := ih (l.url :: seen)
      have hd : dedupByUrl seen (l :: ls) = l :: dedupByUrl (l.url :: seen) ls := by
        simp [dedupByUrl, hmem]
      rw [hd]
      refine ⟨?_, ?_⟩
      · rw [List.map_cons, List.nodup_cons]
        exact ⟨fun hu => (h2.2 l.url hu) (by simp), h2.1⟩
      · intro u hu
        rw [List.map_cons, List.mem_cons] at hu
        rcases hu with rfl | hu
        · exact hmem
        · intro hs
          exact (h2.2 u hu) (List.mem_cons_of_mem _ hs)

/-- C7, counterexample: against base https://example.atlassian.net/wiki,
the relative URL /wiki/download/attachments/123/f.pdf has a path
containing /wiki/ so the claim classifies it internal, but the code's
attachment test runs first and yields attachment; and the URL
https://example.atlassian.net/x?q=/pages/9 has a path without any
marker so the claim classifies it external, but the code matches
/pages/ inside the query string and yields internal. -/
theorem spec_C7_counterexample :
    determine_link_type "/wiki/download/attachments/123/f.pdf".data
      "https://example.atlassian.net/wiki".data = "attachment" ∧
    link_type_claimed "/wiki/download/attachments/123/f.pdf".data
      "https://example.atlassian.net/wiki".data = "internal" ∧
    determine_link_type "https://example.atlassian.net/x?q=/pages/9".data
      "https://example.atlassian.net/wiki".data = "internal" ∧
    link_type_claimed "https://example.atlassian.net/x?q=/pages/9".data
      "https://example.atlassian.net/wiki".data = "external" ∧
    ("attachment" : String) ≠ "internal" ∧ ("internal" : String) ≠ "external" := by
  exact ⟨by decide, by decide, by decide, by decide, by decide, by decide⟩

/-- C7, amended: the attachment test takes precedence (a URL starting
with attachment: or containing /attachments/ is an attachment even when
its path contains /wiki/, /pages/ or /spaces/), and the internal test
matches those markers anywhere in the URL string, not just in the path;
with that order, a base-host or relative URL containing a marker is
internal with the page id taken from the URL, other URLs are external,
anchor-only and javascript links are dropped, self-links are dropped,
and extracted links are deduplicated by URL.  The spec's concrete
examples all hold. -/
theorem spec_C7_link_classification :
    (∀ url base, determine_link_type url base = link_type_amended url base) ∧
    parse_html_link "https://example.atlassian.net/wiki/spaces/T/pages/67890/Title".data
        "x".data "https://example.atlassian.net/wiki".data "11111".data =
      some ⟨"https://example.atlassian.net/wiki/spaces/T/pages/67890/Title".data,
            "x".data, "internal", some "67890".data⟩ ∧
    parse_html_link "attachment:doc.pdf".data "d".data
        "https://example.atlassian.net/wiki".data "11111".data =
      some ⟨"attachment:doc.pdf".data, "d".data, "attachment", none⟩ ∧
    parse_html_link "https://google.com".data "g".data
        "https://example.atlassian.net/wiki".data "11111".data =
      some ⟨"https://google.com".data, "g".data, "external", none⟩ ∧
    parse_html_link "#x".data "t".data
        "https://example.atlassian.net/wiki".data "11111".data = none ∧
    parse_html_link "javascript:void(0)".data "t".data
        "https://example.atlassian.net/wiki".data "11111".data = none ∧
    parse_html_link "https://example.atlassian.net/wiki/spaces/T/pages/67890/Title".data
        "x".data "https://example.atlassian.net/wiki".data "67890".data = none ∧
    (∀ atags base cur,
      ((extract_links atags base cur).map ParsedLink.url).Nodup) := by
  refine ⟨?_, by decide, by decide, by decide, by decide, by decide, by decide, ?_⟩
  · intro url base
    simp only [determine_link_type, link_type_amended, List.any_cons,
      List.any_nil, Bool.or_false, Bool.or_assoc]
  · intro atags base cur
    exact (dedupByUrl_nodup _ []).1

/-- C5: when a stored page exists whose version is at least the
incoming version, _process_page leaves the session untouched (no page,
chunk or link write, no flush, no commit) and only increments the
pages_skipped counter. -/
theorem spec_C5_version_skip (env : SyncEnv) (now : Nat) (s : Session)
    (stats : Stats) (cp : ConfluencePage) (p : PageRow)
    (h1 : queryPage s.pending cp.page_id = some p)
    (h2 : cp.version ≤ p.version) :
    process_page env now s stats cp =
      (s, { stats with pages_skipped := stats.pages_skipped + 1 }, none) := by
  unfold process_page
  rw [h1]
  simp [h2]

/-- C5, witness: page A version 1 re-offered at version 1 is skipped. -/
theorem spec_C5_witness :
    queryPage sess0.pending cpA1.page_id = some pageA1 ∧
    cpA1.version ≤ pageA1.version ∧
    process_page envFailEmbed 7 sess0 stats0 cpA1 =
      (sess0, { stats0 with pages_skipped := stats0.pages_skipped + 1 }, none) :=
  ⟨by decide, by decide,
   spec_C5_version_skip envFailEmbed 7 sess0 stats0 cpA1 pageA1 (by decide) (by decide)⟩

/-- C4, counterexample: page A stores version 1 with one chunk; an
accepted update to version 2 whose body normalizes to the empty string
commits the new page row but leaves the old chunk in place, because
_create_chunks returns before its delete when the body is empty. -/
theorem spec_C4_counterexample :
    (process_page envEmptyBody 7 sess0 stats0 cpA2ok).2.2 = none ∧
    (process_page envEmptyBody 7 sess0 stats0 cpA2ok).1.committed.pages.find?
        (fun p => p.page_id = "A") =
      some ⟨"A", "SP", "tA2", "uA2", "", 2, 20, 7⟩ ∧
    (process_page envEmptyBody 7 sess0 stats0 cpA2ok).1.committed.chunks.filter
        (fun c => c.page_id = "A") = [chunkA] ∧
    ([chunkA] : List ChunkRow) ≠ [] := by
  exact ⟨by decide, by decide, by decide, by decide⟩

/-- C4, amended: on an accepted update whose new body normalizes to
non-whitespace text, the committed chunk set and outgoing-link set of
the page are exactly the ones derived from the new body, so nothing
derived from the previous body survives; but when the new body
normalizes to empty or whitespace-only text the previous chunk set is
left in place (the links are still replaced). -/
theorem spec_C4_replacement (env : SyncEnv) (now : Nat) (s : Session)
    (stats : Stats) (cp : ConfluencePage) (p : PageRow) (embs : List Vec)
    (h1 : queryPage s.pending cp.page_id = some p)
    (h2 : p.version < cp.version)
    (hbody : pyStripStr (env.html_to_text cp.body_html) ≠ "")
    (hchunks : (env.chunk_text (env.html_to_text cp.body_html)).isEmpty = false)
    (hembed : env.embed_texts
        ((env.chunk_text (env.html_to_text cp.body_html)).map TextChunk.text) =
      some embs) :
    (process_page env now s stats cp).2.2 = none ∧
    (process_page env now s stats cp).1.committed.chunks.filter
        (fun c => c.page_id = cp.page_id) =
      ((List.zip (env.chunk_text (env.html_to_text cp.body_html)) embs).enum).map
        (fun ie => ChunkRow.mk (s.pending.next_id + ie.1) cp.page_id cp.space_key
          ie.2.1.heading_path ie.2.1.chunk_index ie.2.1.text ie.2.1.token_count
          ie.2.2) ∧
    (process_page env now s stats cp).1.committed.links.filter
        (fun l => l.from_page_id = cp.page_id) =
      (env.extr_links cp.body_html env.base_url cp.page_id).map (fun l =>
        LinkRow.mk cp.page_id l.page_id l.url
          (if l.text = "" then none
           else some (String.mk (l.text.data.take 500))) l.link_type) := by
  have hle : ¬ cp.version ≤ p.version := by omega
  have hne : ¬ (env.html_to_text cp.body_html = "" ||
      pyStripStr (env.html_to_text cp.body_html) = "") = true := by
    simp only [Bool.or_eq_true, decide_eq_true_eq]
    rintro (h | h)
    · exact hbody (by rw [h]; rfl)
    · exact hbody h
  unfold process_page create_chunks
  rw [h1]
  simp only [process_links, hle, if_false, hne, hembed, hchunks,
    Bool.false_eq_true, Session.commit]
  refine ⟨trivial, ?_, ?_⟩
  · rw [List.filter_append]
    rw [List.filter_filter]
    have hz : ∀ c : ChunkRow,
        (decide (c.page_id = cp.page_id) && decide (c.page_id ≠ cp.page_id)) = false := by
      intro c
      by_cases h : c.page_id = cp.page_id <;> simp [h]
    simp only [hz, List.filter_false, List.nil_append, upsertPage, if_true]
    rw [List.filter_eq_self]
    intro a ha
    simp only [List.mem_map] at ha
    obtain ⟨ie, _, rfl⟩ := ha
    simp
  · rw [List.filter_append]
    rw [List.filter_filter]
    have hz : ∀ l : LinkRow,
        (decide (l.from_page_id = cp.page_id) && decide (l.from_page_id ≠ cp.page_id)) = false := by
      intro l
      by_cases h : l.from_page_id = cp.page_id <;> simp [h]
    simp only [hz, List.filter_false, List.nil_append, upsertPage, if_true]
    rw [List.filter_eq_self]
    intro a ha
    simp only [List.mem_map] at ha
    obtain ⟨le, _, rfl⟩ := ha
    simp

/-- C4, witness: an accepted v1 to v2 update of page A through concrete
components satisfies the hypotheses and commits without error. -/
theorem spec_C4_witness :
    queryPage sess0.pending cpA2ok.page_id = some pageA1 ∧
    pageA1.version < cpA2ok.version ∧
    pyStripStr (envOneChunk.html_to_text cpA2ok.body_html) ≠ "" ∧
    (envOneChunk.chunk_text (envOneChunk.html_to_text cpA2ok.body_html)).isEmpty = false ∧
    envOneChunk.embed_texts
        ((envOneChunk.chunk_text (envOneChunk.html_to_text cpA2ok.body_html)).map
          TextChunk.text) = some [[1, 2]] ∧
    (process_page envOneChunk 7 sess0 stats0 cpA2ok).2.2 = none :=
  ⟨by decide, by decide, by decide, by decide, by decide,
   (spec_C4_replacement envOneChunk 7 sess0 stats0 cpA2ok pageA1 [[1, 2]]
     (by decide) (by decide) (by decide) (by decide) (by decide)).1⟩

/-- C2: Process-Page is not atomic on failure.  Page A (version 1, one
stored chunk) is updated to version 2 but its embedding raises; the
loop records the error and continues, yet the session is never rolled
back, so the commit issued for the next page B publishes A's partial
writes: the committed store ends with A at version 2 and no chunks for
A, instead of the pre-failure row and chunk set. -/
theorem spec_C2_atomicity_violated :
    (sync_pages_loop envFailEmbed 7 sess0 stats0 [cpA2, cpB1]).1.committed.pages.find?
        (fun p => p.page_id = "A") =
      some ⟨"A", "SP", "tA2", "uA2", "FAIL", 2, 20, 7⟩ ∧
    (sync_pages_loop envFailEmbed 7 sess0 stats0 [cpA2, cpB1]).1.committed.chunks.filter
        (fun c => c.page_id = "A") = [] ∧
    (sync_pages_loop envFailEmbed 7 sess0 stats0 [cpA2, cpB1]).2.errors =
      [pageErrMsg "A" "embed"] ∧
    sess0.committed.pages.find? (fun p => p.page_id = "A") = some pageA1 ∧
    sess0.committed.chunks.filter (fun c => c.page_id = "A") = [chunkA] ∧
    some (⟨"A", "SP", "tA2", "uA2", "FAIL", 2, 20, 7⟩ : PageRow) ≠ some pageA1 ∧
    ([] : List ChunkRow) ≠ [chunkA] := by
  exact ⟨by decide, by decide, by decide, by decide, by decide, by decide, by decide⟩

/-- dropWhile is idempotent. -/
theorem dropWhile_pyWS_idem (l : List Char) :
    (l.dropWhile pyWS).dropWhile pyWS = l.dropWhile pyWS := by
  induction l with
  | nil => rfl
  | cons c t ih =>
    by_cases h : pyWS c
    · simp [List.dropWhile_cons, h, ih]
    · simp [List.dropWhile_cons, h]

theorem lstrip_lstrip (l : List Char) : lstrip (lstrip l) = lstrip l :=
  dropWhile_pyWS_idem l

theorem rstrip_rstrip (l : List Char) : rstrip (rstrip l) = rstrip l := by
  unfold rstrip
  rw [List.reverse_reverse, dropWhile_pyWS_idem]

/-- A list with no leading whitespace keeps that property under
rstrip. -/
theorem lstrip_rstrip_of_lstrip (x : List Char) (h : lstrip x = x) :
    lstrip (rstrip x) = rstrip x := by
  obtain ⟨t, ht⟩ := @List.dropWhile_suffix _ x.reverse pyWS
  have hx : x = rstrip x ++ t.reverse := by
    have := congrArg List.reverse ht
    simpa [rstrip] using this.symm
  cases hr : rstrip x with
  | nil => rfl
  | cons a z =>
    have hxa : x = a :: (z ++ t.reverse) := by rw [hx, hr]; rfl
    have hpa : pyWS a = false := by
      cases hq : pyWS a
      · rfl
      · exfalso
        have h2 : x.dropWhile pyWS = (z ++ t.reverse).dropWhile pyWS := by
          rw [hxa]; simp [List.dropWhile_cons, hq]
        have hlen := (@List.dropWhile_sublist _ (z ++ t.reverse) pyWS).length_le
        have hfix : x.dropWhile pyWS = x := h
        rw [hfix] at h2
        have h3 := congrArg List.length h2
        rw [hxa] at h3
        simp only [List.length_cons] at h3
        omega
    simp [lstrip, List.dropWhile_cons, hpa]

/-- Python str.strip() is idempotent. -/
theorem pyStrip_idem (l : List Char) : pyStrip (pyStrip l) = pyStrip l := by
  show rstrip (lstrip (rstrip (lstrip l))) = rstrip (lstrip l)
  rw [lstrip_rstrip_of_lstrip (lstrip l) (lstrip_lstrip l), rstrip_rstrip]

theorem pyStripStr_idem (s : String) : pyStripStr (pyStripStr s) = pyStripStr s := by
  unfold pyStripStr
  exact congrArg String.mk (pyStrip_idem s.data)

/-- Every slice produced by chunksOf has at most n elements. -/
theorem chunksOfGo_length_le (n : Nat) : ∀ (fuel : Nat) (l : List α)
    (b : List α), b ∈ chunksOfGo n fuel l → b.length ≤ n := by
  intro fuel
  induction fuel with
  | zero => intro l b h; simp [chunksOfGo] at h
  | succ fuel ih =>
    intro l b h
    cases l with
    | nil => simp [chunksOfGo] at h
    | cons c t =>
      rw [chunksOfGo] at h
      rcases List.mem_cons.mp h with rfl | h
      · exact List.length_take_le n (c :: t)
      · exact ih _ _ h

/-- Elements of chunksOf slices come from the original list. -/
theorem chunksOfGo_mem (n : Nat) : ∀ (fuel : Nat) (l : List α)
    (b : List α), b ∈ chunksOfGo n fuel l → ∀ x ∈ b, x ∈ l := by
  intro fuel
  induction fuel with
  | zero => intro l b h; simp [chunksOfGo] at h
  | succ fuel ih =>
    intro l b h x hx
    cases l with
    | nil => simp [chunksOfGo] at h
    | cons c t =>
      rw [chunksOfGo] at h
      rcases List.mem_cons.mp h with rfl | h
      · exact List.take_subset _ _ hx
      · exact List.drop_subset _ _ (ih _ _ h x hx)

/-- Concatenating the chunksOf slices restores the list. -/
theorem chunksOfGo_flatten (n : Nat) (hn : 0 < n) : ∀ (fuel : Nat)
    (l : List α), l.length ≤ fuel → (chunksOfGo n fuel l).flatten = l := by
  intro fuel
  induction fuel with
  | zero =>
    intro l hl
    have : l = [] := List.length_eq_zero.mp (by omega)
    subst this; rfl
  | succ fuel ih =>
    intro l hl
    cases l with
    | nil => rfl
    | cons c t =>
      have hd : ((c :: t).drop n).length ≤ fuel := by
        rw [List.length_drop]
        omega
      rw [chunksOfGo, List.flatten_cons, ih _ hd]
      exact List.take_append_drop n (c :: t)

/-- Unfolding stripPairsFrom over a cons cell. -/
theorem stripPairsFrom_cons (k : Nat) (t : String) (ts : List String) :
    stripPairsFrom k (t :: ts) =
      if pyStripStr t ≠ "" then (k, pyStripStr t) :: stripPairsFrom (k + 1) ts
      else stripPairsFrom (k + 1) ts := by
  by_cases h : pyStripStr t ≠ "" <;>
    simp [stripPairsFrom, List.enumFrom_cons, List.filter_cons, h]

/-- Each kept pair has index at least k and carries a stripped
non-empty input. -/
theorem mem_stripPairsFrom (ts : List String) : ∀ (k : Nat) (p : Nat × String),
    p ∈ stripPairsFrom k ts →
      k ≤ p.1 ∧ ∃ t, p.2 = pyStripStr t ∧ pyStripStr t ≠ "" := by
  induction ts with
  | nil => intro k p h; simp [stripPairsFrom] at h
  | cons t ts ih =>
    intro k p h
    rw [stripPairsFrom_cons] at h
    by_cases ht : pyStripStr t ≠ ""
    · rw [if_pos ht] at h
      rcases List.mem_cons.mp h with rfl | h
      · exact ⟨Nat.le_refl _, t, rfl, ht⟩
      · have := ih (k + 1) p h
        exact ⟨by omega, this.2⟩
    · rw [if_neg ht] at h
      have := ih (k + 1) p h
      exact ⟨by omega, this.2⟩

/-- If no pair is kept, every input strips to the empty string. -/
theorem stripPairsFrom_eq_nil (ts : List String) : ∀ (k : Nat),
    stripPairsFrom k ts = [] → ∀ t ∈ ts, pyStripStr t = "" := by
  induction ts with
  | nil => intro k _ t ht; simp at ht
  | cons t ts ih =>
    intro k h u hu
    rw [stripPairsFrom_cons] at h
    by_cases ht : pyStripStr t ≠ ""
    · rw [if_pos ht] at h; exact absurd h (by simp)
    · rw [if_neg ht] at h
      rcases List.mem_cons.mp hu with rfl | hu
      · exact not_ne_iff.mp ht
      · exact ih (k + 1) h u hu

/-- Lookups below the starting index miss. -/
theorem lookup_stripPairs_lt (f : String → Vec) (ts : List String) :
    ∀ (k m : Nat), m < k →
      (((stripPairsFrom k ts).map (fun p => (p.1, f p.2))).lookup m) = none := by
  induction ts with
  | nil => intro k m _; simp [stripPairsFrom]
  | cons t ts ih =>
    intro k m hm
    rw [stripPairsFrom_cons]
    by_cases ht : pyStripStr t ≠ ""
    · rw [if_pos ht]
      have hmk : m ≠ k := by omega
      have hne : (m == k) = false := by simpa using hmk
      simp only [List.map_cons, List.lookup_cons, hne]
      exact ih (k + 1) m (by omega)
    · rw [if_neg ht]
      exact ih (k + 1) m (by omega)

/-- The aligned lookup of _embed_batch results: position k + i holds
the embedding of the stripped i-th text exactly when that text is not
whitespace-only. -/
theorem lookup_stripPairs (f : String → Vec) (ts : List String) :
    ∀ (k i : Nat) (hi : i < ts.length),
      (((stripPairsFrom k ts).map (fun p => (p.1, f p.2))).lookup (k + i)) =
        if pyStripStr (ts.get ⟨i, hi⟩) = "" then none
        else some (f (pyStripStr (ts.get ⟨i, hi⟩))) := by
  induction ts with
  | nil => intro k i hi; simp at hi
  | cons t ts ih =>
    intro k i hi
    rw [stripPairsFrom_cons]
    cases i with
    | zero =>
      simp only [List.get]
      by_cases ht : pyStripStr t = ""
      · rw [if_neg (by simpa using ht), if_pos ht]
        rw [Nat.add_zero]
        exact lookup_stripPairs_lt f ts (k + 1) k (by omega)
      · rw [if_pos (by simpa using ht), if_neg ht]
        have hk : (k + 0 == k) = true := by simp
        simp [List.lookup_cons, hk]
    | succ j =>
      have hj : j < ts.length := by simpa using hi
      simp only [List.get]
      by_cases ht : pyStripStr t = ""
      · rw [if_neg (by simpa using ht)]
        have : k + (j + 1) = (k + 1) + j := by omega
        rw [this]
        exact ih (k + 1) j hj
      · rw [if_pos (by simp [ht])]
        have hnk : k + (j + 1) ≠ k := by omega
        have hne : (k + (j + 1) == k) = false := by
          simp only [beq_eq_false_iff_ne, ne_eq]
          exact hnk
        simp only [List.map_cons, List.lookup_cons, hne]
        have : k + (j + 1) = (k + 1) + j := by omega
        rw [this]
        exact ih (k + 1) j hj

/-- C9: embed_texts returns one vector per input in input order; every
empty or whitespace-only input maps to the zero vector of the
configured dimension and never reaches any remote batch; the remote
batches each hold at most 100 stripped non-empty texts.  The remote
call is abstracted as api, assumed to return one vector per batch
element in order (its documented contract). -/
theorem spec_C9_embed_texts (dim : Nat) (api : List String → List Vec)
    (f : String → Vec) (texts : List String)
    (hapi : ∀ b, api b = b.map f) :
    (∀ b ∈ embedBatches texts, b.length ≤ 100 ∧
        ∀ p ∈ b, pyStripStr p.2 = p.2 ∧ p.2 ≠ "") ∧
    (∀ s : String, pyStripStr s = "" →
        ∀ b ∈ embedBatches texts, s ∉ b.map Prod.snd) ∧
    embed_texts dim api texts =
      texts.map (fun t => if pyStripStr t = "" then zeroVec dim
                          else f (pyStripStr t)) := by
  have hbatch : ∀ b ∈ embedBatches texts, b.length ≤ 100 ∧
      ∀ p ∈ b, pyStripStr p.2 = p.2 ∧ p.2 ≠ "" := by
    intro b hb
    refine ⟨chunksOfGo_length_le 100 _ _ b hb, ?_⟩
    intro p hp
    have hmem := chunksOfGo_mem 100 _ _ b hb p hp
    obtain ⟨-, t, h2, h3⟩ := mem_stripPairsFrom texts 0 p hmem
    rw [h2]
    exact ⟨pyStripStr_idem t, h3⟩
  refine ⟨hbatch, ?_, ?_⟩
  · intro s hs b hb hsb
    obtain ⟨p, hp, hp2⟩ := List.mem_map.mp hsb
    have := (hbatch b hb).2 p hp
    rw [hp2] at this
    exact this.2 (by rw [← this.1, hs])
  · unfold embed_texts
    by_cases h0 : texts.isEmpty
    · have : texts = [] := List.isEmpty_iff.mp h0
      subst this; rfl
    · rw [if_neg (by simpa using h0)]
      by_cases h1 : (validPairs texts).isEmpty
      · rw [if_pos h1]
        have hnil : stripPairsFrom 0 texts = [] := by
          simpa [validPairs] using List.isEmpty_iff.mp h1
        have hall : ∀ t ∈ texts, pyStripStr t = "" :=
          stripPairsFrom_eq_nil texts 0 hnil
        have : texts.map (fun t => if pyStripStr t = "" then zeroVec dim
            else f (pyStripStr t)) = texts.map (fun _ => zeroVec dim) :=
          List.map_congr_left (fun t ht => by rw [if_pos (hall t ht)])
        rw [this, List.map_const']
      · rw [if_neg h1]
        have hzip : ∀ b : List (Nat × String),
            List.zip (b.map Prod.fst) (api (b.map Prod.snd)) =
              b.map (fun p => (p.1, f p.2)) := by
          intro b
          rw [hapi, List.map_map, List.zip_map']
          simp [Function.comp]
        have hflat : ((embedBatches texts).map
            (fun b => List.zip (b.map Prod.fst) (api (b.map Prod.snd)))).flatten =
            (validPairs texts).map (fun p => (p.1, f p.2)) := by
          simp only [hzip]
          rw [← List.map_flatten]
          have hfl : (embedBatches texts).flatten = validPairs texts :=
            chunksOfGo_flatten 100 (by omega) _ _ (Nat.le_refl _)
          rw [hfl]
        rw [hflat]
        apply List.ext_getElem
        · simp
        · intro i hi1 hi2
          have hlen : i < texts.length := by simpa using hi2
          simp only [List.getElem_map, List.getElem_range]
          have hlook := lookup_stripPairs f texts 0 i hlen
          rw [Nat.zero_add] at hlook
          rw [show (validPairs texts) = stripPairsFrom 0 texts from rfl, hlook]
          rw [List.get_eq_getElem]
          by_cases ht : pyStripStr texts[i] = ""
          · rw [if_pos ht, if_pos ht]; rfl
          · rw [if_neg ht, if_neg ht]; rfl

/-- C9, witness: a whitespace-only and a non-empty input through a
concrete one-vector api. -/
theorem spec_C9_witness :
    embed_texts 2 (fun b => b.map (fun _ => ([5, 6] : Vec))) [" ", "x"] =
      [[0, 0], [5, 6]] := by
  have h := (spec_C9_embed_texts 2 (fun b => b.map (fun _ => ([5, 6] : Vec)))
    (fun _ => ([5, 6] : Vec)) [" ", "x"] (fun b => rfl)).2.2
  rw [h]
  decide

theorem take300_length_le (s : String) : (take300 s).length ≤ 300 := by
  have h : (take300 s).length = (s.data.take 300).length := rfl
  rw [h]
  exact List.length_take_le 300 s.data

/-- One processed chunk extends the per-page score pools by its own
score under its own page only. -/
theorem pageScores_append_one (k : String) (processed : List SearchResult)
    (c : SearchResult) :
    pageScores k (processed ++ [c]) =
      pageScores k processed ++ (if c.page_id = k then [c.score] else []) := by
  by_cases h : c.page_id = k <;>
    simp [pageScores, List.filter_append, List.filter_cons, h]

/-- groupStep preserves the dictionary invariant. -/
theorem groupStep_inv (processed : List SearchResult)
    (d : List (String × PageSearchResult)) (c : SearchResult)
    (h : GroupInv processed d) : GroupInv (processed ++ [c]) (groupStep d c) := by
  obtain ⟨hnd, hmiss, hent⟩ := h
  unfold groupStep
  by_cases hc : (d.map Prod.fst).contains c.page_id = true
  · rw [if_pos hc]
    have hcm : c.page_id ∈ d.map Prod.fst := by simpa using hc
    have hkeys : (d.map (fun kp =>
        if kp.1 = c.page_id then
          (kp.1,
            { kp.2 with
              snippets := if kp.2.snippets.length < 3
                          then kp.2.snippets ++ [take300 c.text]
                          else kp.2.snippets
              chunk_count := kp.2.chunk_count + 1
              score := if kp.2.score < c.score then c.score else kp.2.score })
        else kp)).map Prod.fst = d.map Prod.fst := by
      rw [List.map_map]
      exact List.map_congr_left (fun kp _ => by
        by_cases h : kp.1 = c.page_id <;> simp [h])
    refine ⟨by rw [hkeys]; exact hnd, ?_, ?_⟩
    · intro k hk
      rw [hkeys] at hk
      have hne : ¬ c.page_id = k := fun he => hk (he ▸ hcm)
      rw [pageScores_append_one, if_neg hne, List.append_nil]
      exact hmiss k hk
    · intro kp' hkp'
      obtain ⟨kp, hkp, rfl⟩ := List.mem_map.mp hkp'
      obtain ⟨hpid, hsc, hub, hsl, hsb⟩ := hent kp hkp
      by_cases h : kp.1 = c.page_id
      · have hck : c.page_id = kp.1 := h.symm
        rw [if_pos h]
        rw [pageScores_append_one, if_pos hck]
        refine ⟨hpid, ?_, ?_, ?_, ?_⟩
        · by_cases hlt : kp.2.score < c.score
          · simp only [hlt, if_pos]
            exact List.mem_append_right _ (by simp)
          · simp only [hlt, if_neg, if_false]
            exact List.mem_append_left _ hsc
        · intro x hx
          rcases List.mem_append.mp hx with hx | hx
          · by_cases hlt : kp.2.score < c.score
            · simp only [hlt, if_pos]
              exact le_of_lt (lt_of_le_of_lt (hub x hx) hlt)
            · simp only [hlt, if_neg, if_false]
              exact hub x hx
          · have hxc : x = c.score := by simpa using hx
            subst hxc
            by_cases hlt : kp.2.score < c.score
            · simp [hlt]
            · simp only [hlt, if_neg, if_false]
              exact le_of_not_lt hlt
        · by_cases hlen : kp.2.snippets.length < 3
          · simp only [hlen, if_pos, List.length_append, List.length_cons,
              List.length_nil]
            omega
          · simpa [hlen] using hsl
        · intro sn hsn
          by_cases hlen : kp.2.snippets.length < 3
          · simp only [hlen, if_pos] at hsn
            rcases List.mem_append.mp hsn with hsn | hsn
            · exact hsb sn hsn
            · have : sn = take300 c.text := by simpa using hsn
              subst this
              exact take300_length_le c.text
          · simp only [hlen, if_neg, if_false] at hsn
            exact hsb sn hsn
      · rw [if_neg h]
        have hne : ¬ c.page_id = kp.1 := fun he => h he.symm
        rw [pageScores_append_one, if_neg hne, List.append_nil]
        exact ⟨hpid, hsc, hub, hsl, hsb⟩
  · rw [if_neg hc]
    have hcm : c.page_id ∉ d.map Prod.fst := by simpa using hc
    refine ⟨?_, ?_, ?_⟩
    · simp only [List.map_append, List.map_cons, List.map_nil]
      rw [List.nodup_append]
      exact ⟨hnd, List.nodup_singleton _, by
        intro a ha hb
        have : a = c.page_id := by simpa using hb
        exact hcm (this ▸ ha)⟩
    · intro k hk
      simp only [List.map_append, List.map_cons, List.map_nil,
        List.mem_append, List.mem_cons, List.not_mem_nil] at hk
      push_neg at hk
      have hne : ¬ c.page_id = k := fun he => hk.2.1 he.symm
      rw [pageScores_append_one, if_neg hne, List.append_nil]
      exact hmiss k (by simpa using hk.1)
    · intro kp hkp
      rcases List.mem_append.mp hkp with hkp | hkp
      · obtain ⟨hpid, hsc, hub, hsl, hsb⟩ := hent kp hkp
        have hk1 : kp.1 ∈ d.map Prod.fst := List.mem_map.mpr ⟨kp, hkp, rfl⟩
        have hne : ¬ c.page_id = kp.1 := fun he => hcm (he ▸ hk1)
        rw [pageScores_append_one, if_neg hne, List.append_nil]
        exact ⟨hpid, hsc, hub, hsl, hsb⟩
      · have : kp = (c.page_id,
            ⟨c.page_id, c.space_key, c.title, c.url, c.score,
             [take300 c.text], 1⟩) := by simpa using hkp
        subst this
        have hmt : pageScores c.page_id processed = [] := hmiss _ hcm
        rw [pageScores_append_one, if_pos rfl, hmt, List.nil_append]
        refine ⟨rfl, by simp, ?_, by simp, ?_⟩
        · intro x hx
          have : x = c.score := by simpa using hx
          simp [this]
        · intro sn hsn
          have : sn = take300 c.text := by simpa using hsn
          subst this
          exact take300_length_le c.text

/-- The fold of _group_by_page keeps the invariant. -/
theorem foldl_groupStep_inv : ∀ (cs processed : List SearchResult)
    (d : List (String × PageSearchResult)), GroupInv processed d →
    GroupInv (processed ++ cs) (cs.foldl groupStep d) := by
  intro cs
  induction cs with
  | nil => intro processed d h; simpa using h
  | cons c cs ih =>
    intro processed d h
    have h2 := ih (processed ++ [c]) (groupStep d c) (groupStep_inv processed d c h)
    rw [List.append_cons]
    simpa using h2

/-- byScoreDesc is transitive. -/
theorem byScoreDesc_trans (a b c : PageSearchResult)
    (hab : byScoreDesc a b) (hbc : byScoreDesc b c) : byScoreDesc a c := by
  simp only [byScoreDesc, decide_eq_true_eq] at hab hbc ⊢
  exact le_trans hbc hab

/-- byScoreDesc is total. -/
theorem byScoreDesc_total (a b : PageSearchResult) :
    byScoreDesc a b || byScoreDesc b a := by
  simp only [byScoreDesc]
  rcases le_total a.score b.score with h | h <;> simp [h]

/-- C6: for any retrieved chunk rows, vector_search returns at most
max_pages hits with pairwise distinct page ids, sorted by score
descending; each hit's score is the maximum score among the kept
(score at least min_score) chunks of that page, and each hit carries at
most 3 snippets of at most 300 characters. -/
theorem spec_C6_search_grouping (rows : List SearchResult) (min_score : ℚ)
    (max_pages : Nat) :
    (vector_search rows min_score max_pages).length ≤ max_pages ∧
    ((vector_search rows min_score max_pages).map PageSearchResult.page_id).Nodup ∧
    (vector_search rows min_score max_pages).Pairwise
      (fun a b => b.score ≤ a.score) ∧
    ∀ h ∈ vector_search rows min_score max_pages,
      h.score ∈ pageScores h.page_id (rows.filter (fun r => min_score ≤ r.score)) ∧
      (∀ x ∈ pageScores h.page_id (rows.filter (fun r => min_score ≤ r.score)),
        x ≤ h.score) ∧
      h.snippets.length ≤ 3 ∧ ∀ sn ∈ h.snippets, sn.length ≤ 300 := by
  have hinv : GroupInv (rows.filter (fun r => min_score ≤ r.score))
      ((rows.filter (fun r => min_score ≤ r.score)).foldl groupStep []) := by
    have h0 : GroupInv [] ([] : List (String × PageSearchResult)) := by
      refine ⟨List.nodup_nil, ?_, ?_⟩
      · intro k _; rfl
      · intro kp hkp; simp at hkp
    simpa using foldl_groupStep_inv _ [] [] h0
  obtain ⟨hnd, hmiss, hent⟩ := hinv
  set cs := rows.filter (fun r => min_score ≤ r.score) with hcs
  set D := cs.foldl groupStep [] with hD
  have hperm : List.Perm ((D.map Prod.snd).mergeSort byScoreDesc)
      (D.map Prod.snd) :=
    List.mergeSort_perm _ _
  have hmemsort : ∀ h ∈ (D.map Prod.snd).mergeSort byScoreDesc,
      ∃ kp ∈ D, h = kp.2 := by
    intro h hh
    have : h ∈ D.map Prod.snd := hperm.mem_iff.mp hh
    obtain ⟨kp, hkp, he⟩ := List.mem_map.mp this
    exact ⟨kp, hkp, he.symm⟩
  refine ⟨?_, ?_, ?_, ?_⟩
  · exact List.length_take_le _ _
  · have hids : (D.map Prod.snd).map PageSearchResult.page_id = D.map Prod.fst := by
      rw [List.map_map]
      exact List.map_congr_left (fun kp hkp => (hent kp hkp).1)
    have hsortids : (((D.map Prod.snd).mergeSort byScoreDesc).map
        PageSearchResult.page_id).Nodup := by
      have := (hperm.map PageSearchResult.page_id).nodup_iff
      rw [hids] at this
      exact this.mpr hnd
    exact hsortids.sublist ((List.take_sublist _ _).map _)
  · have hs := @List.sorted_mergeSort _ byScoreDesc
      (fun a b c => byScoreDesc_trans a b c)
      (fun a b => byScoreDesc_total a b) (D.map Prod.snd)
    have hs2 : ((D.map Prod.snd).mergeSort byScoreDesc).Pairwise
        (fun a b => b.score ≤ a.score) := by
      refine hs.imp ?_
      intro a b hab
      simpa [byScoreDesc] using hab
    exact hs2.sublist (List.take_sublist _ _)
  · intro h hh
    have hh2 : h ∈ (D.map Prod.snd).mergeSort byScoreDesc :=
      List.mem_of_mem_take hh
    obtain ⟨kp, hkp, rfl⟩ := hmemsort h hh2
    obtain ⟨hpid, hsc, hub, hsl, hsb⟩ := hent kp hkp
    rw [hpid]
    exact ⟨hsc, hub, hsl, hsb⟩

/- ========== generic window-predicate lemmas ========== -/

theorem pairsOK_cons (f : Char → Char → Bool) (a : Char) (l : List Char) :
    pairsOK f (a :: l) = true ↔
      (∀ b, l.head? = some b → f a b = true) ∧ pairsOK f l = true := by
  cases l with
  | nil => simp [pairsOK]
  | cons b r => simp [pairsOK, Bool.and_eq_true, and_comm]

theorem pairsOK_tail (f : Char → Char → Bool) (a : Char) (l : List Char)
    (h : pairsOK f (a :: l) = true) : pairsOK f l = true :=
  ((pairsOK_cons f a l).mp h).2

theorem pairsOK_append_right (f : Char → Char → Bool) :
    ∀ xs ys : List Char, pairsOK f (xs ++ ys) = true → pairsOK f ys = true := by
  intro xs
  induction xs with
  | nil => intro ys h; simpa using h
  | cons a xs ih =>
    intro ys h
    exact ih ys (pairsOK_tail f a (xs ++ ys) (by simpa using h))

theorem pairsOK_append_left (f : Char → Char → Bool) :
    ∀ xs ys : List Char, pairsOK f (xs ++ ys) = true → pairsOK f xs = true := by
  intro xs
  induction xs with
  | nil => intro ys _; rfl
  | cons a xs ih =>
    intro ys h
    rw [List.cons_append] at h
    rw [pairsOK_cons] at h ⊢
    refine ⟨?_, ih ys h.2⟩
    intro b hb
    exact h.1 b (by cases xs <;> simp_all)

theorem pairsOK_append (f : Char → Char → Bool) :
    ∀ xs ys : List Char, pairsOK f xs = true → pairsOK f ys = true →
      (∀ a b, xs.getLast? = some a → ys.head? = some b → f a b = true) →
      pairsOK f (xs ++ ys) = true := by
  intro xs
  induction xs with
  | nil => intro ys _ hy _; simpa using hy
  | cons a xs ih =>
    intro ys hx hy hb
    rw [List.cons_append, pairsOK_cons]
    rw [pairsOK_cons] at hx
    refine ⟨?_, ih ys hx.2 hy ?_⟩
    · intro b hbhead
      cases xs with
      | nil =>
        exact hb a b rfl (by simpa using hbhead)
      | cons x xs' =>
        exact hx.1 b (by simpa using hbhead)
    · intro p q hp hq
      apply hb p q ?_ hq
      cases xs with
      | nil => simp at hp
      | cons x xs' => simpa using hp

theorem pairsOK_boundary (f : Char → Char → Bool) :
    ∀ xs : List Char, ∀ y : Char, ∀ ys : List Char,
      pairsOK f (xs ++ y :: ys) = true →
      ∀ a, xs.getLast? = some a → f a y = true := by
  intro xs
  induction xs with
  | nil => intro y ys _ a ha; simp at ha
  | cons x xs ih =>
    intro y ys h a ha
    rw [List.cons_append, pairsOK_cons] at h
    cases xs with
    | nil =>
      have hax : x = a := by simpa using ha
      subst hax
      exact h.1 y rfl
    | cons x2 xs' =>
      exact ih y ys h.2 a (by simpa using ha)

theorem triplesOK_cons (f : Char → Char → Char → Bool) (a : Char)
    (l : List Char) :
    triplesOK f (a :: l) = true ↔
      (∀ b c, l.head? = some b → l.tail.head? = some c → f a b c = true) ∧
      triplesOK f l = true := by
  cases l with
  | nil => simp [triplesOK]
  | cons b r =>
    cases r with
    | nil => simp [triplesOK]
    | cons c r2 => simp [triplesOK, Bool.and_eq_true, and_comm]

theorem triplesOK_tail (f : Char → Char → Char → Bool) (a : Char)
    (l : List Char) (h : triplesOK f (a :: l) = true) : triplesOK f l = true :=
  ((triplesOK_cons f a l).mp h).2

theorem triplesOK_append_right (f : Char → Char → Char → Bool) :
    ∀ xs ys : List Char, triplesOK f (xs ++ ys) = true →
      triplesOK f ys = true := by
  intro xs
  induction xs with
  | nil => intro ys h; simpa using h
  | cons a xs ih =>
    intro ys h
    exact ih ys (triplesOK_tail f a (xs ++ ys) (by simpa using h))

theorem triplesOK_append_left (f : Char → Char → Char → Bool) :
    ∀ xs ys : List Char, triplesOK f (xs ++ ys) = true →
      triplesOK f xs = true := by
  intro xs
  induction xs with
  | nil => intro ys _; rfl
  | cons a xs ih =>
    intro ys h
    rw [List.cons_append] at h
    rw [triplesOK_cons] at h ⊢
    refine ⟨?_, ih ys h.2⟩
    intro b c hb hc
    apply h.1 b c
    · cases xs <;> simp_all
    · cases xs with
      | nil => simp at hc
      | cons x xs' => cases xs' <;> simp_all

/-- A window predicate holds vacuously when its first character can
never start a violation. -/
theorem triplesOK_cons_of_safe (f : Char → Char → Char → Bool) (a : Char)
    (l : List Char) (ha : ∀ b c, f a b c = true)
    (hl : triplesOK f l = true) : triplesOK f (a :: l) = true :=
  (triplesOK_cons f a l).mpr ⟨fun b c _ _ => ha b c, hl⟩

theorem pairsOK_cons_of_safe (f : Char → Char → Bool) (a : Char)
    (l : List Char) (ha : ∀ b, f a b = true)
    (hl : pairsOK f l = true) : pairsOK f (a :: l) = true :=
  (pairsOK_cons f a l).mpr ⟨fun b _ => ha b, hl⟩

/-- A newline-free list has no newline triple. -/
theorem noTripleNl_of_noNl (l : List Char) (h : ∀ c ∈ l, ¬(c = '\n')) :
    noTripleNl l = true := by
  induction l with
  | nil => rfl
  | cons a l ih =>
    refine triplesOK_cons_of_safe nlTriple a l ?_ (ih ?_)
    · intro b c
      simp only [nlTriple]
      have := h a (by simp)
      simp [this]
    · intro c hc; exact h c (List.mem_cons_of_mem _ hc)

/-- A newline-free list has no whitespace padding around newlines. -/
theorem noWsPad_of_noNl (l : List Char) (h : ∀ c ∈ l, ¬(c = '\n')) :
    noWsPad l = true := by
  induction l with
  | nil => rfl
  | cons a l ih =>
    apply (pairsOK_cons wsPadOK a l).mpr
    constructor
    · intro b hb
      have hbm : b ∈ l := by cases l <;> simp_all
      have ha := h a (by simp)
      have hbn := h b (List.mem_cons_of_mem _ hbm)
      simp [wsPadOK, ha, hbn]
    · exact ih (fun c hc => h c (List.mem_cons_of_mem _ hc))

/-- A newline-free list is step2-fixed. -/
theorem step1Fixed_tail (a : Char) (l : List Char)
    (h : step1Fixed (a :: l) = true) : step1Fixed l = true := by
  simp only [step1Fixed, Bool.and_eq_true, List.all_cons] at h ⊢
  exact ⟨h.1.2, pairsOK_tail _ a l h.2⟩

theorem step1Fixed_append_right (xs ys : List Char)
    (h : step1Fixed (xs ++ ys) = true) : step1Fixed ys = true := by
  simp only [step1Fixed, Bool.and_eq_true, List.all_append] at h ⊢
  exact ⟨h.1.2, pairsOK_append_right _ xs ys h.2⟩

theorem step1Fixed_append_left (xs ys : List Char)
    (h : step1Fixed (xs ++ ys) = true) : step1Fixed xs = true := by
  simp only [step1Fixed, Bool.and_eq_true, List.all_append] at h ⊢
  exact ⟨h.1.1, pairsOK_append_left _ xs ys h.2⟩

theorem step2Fixed_tail (a : Char) (l : List Char)
    (h : step2Fixed (a :: l) = true) : step2Fixed l = true := by
  simp only [step2Fixed, Bool.and_eq_true] at h
  exact h.2

theorem step2Fixed_append_right (xs ys : List Char)
    (h : step2Fixed (xs ++ ys) = true) : step2Fixed ys = true := by
  induction xs with
  | nil => simpa using h
  | cons a xs ih => exact ih (step2Fixed_tail a (xs ++ ys) (by simpa using h))

/- ========== splitNl / joinNl structure ========== -/

theorem splitNl_ne_nil : ∀ v : List Char, splitNl v ≠ [] := by
  intro v
  cases v with
  | nil => simp [splitNl]
  | cons c rest =>
    rw [splitNl]
    cases h : splitNl rest with
    | nil => simp
    | cons l ls => by_cases hc : c = '\n' <;> simp [hc]

theorem splitNl_cons_nl (v : List Char) : splitNl ('\n' :: v) = [] :: splitNl v := by
  rw [splitNl]
  cases h : splitNl v with
  | nil => exact absurd h (splitNl_ne_nil v)
  | cons l ls => simp

theorem splitNl_eq : ∀ v : List Char, splitNl v = v.takeWhile notNl ::
    (match v.dropWhile notNl with | [] => [] | _ :: w => splitNl w) := by
  intro v
  induction v with
  | nil => rfl
  | cons c v ih =>
    by_cases hc : c = '\n'
    · subst hc
      rw [splitNl_cons_nl]
      have ht : notNl '\n' = false := by simp [notNl]
      rw [List.takeWhile_cons, List.dropWhile_cons]
      simp [ht]
    · have ht : notNl c = true := by simp [notNl, hc]
      rw [splitNl, ih]
      rw [List.takeWhile_cons, List.dropWhile_cons]
      simp [ht, hc]

theorem joinNl_cons (x : List Char) (l : List (List Char)) (h : l ≠ []) :
    joinNl (x :: l) = x ++ '\n' :: joinNl l := by
  cases l with
  | nil => exact absurd rfl h
  | cons y ls => rfl

theorem step3_nil : step3 [] = [] := rfl

theorem step3_cons_nl (v : List Char) : step3 ('\n' :: v) = '\n' :: step3 v := by
  unfold step3
  rw [splitNl_cons_nl, List.map_cons]
  rw [joinNl_cons _ _ (by simp [splitNl_ne_nil v])]
  rfl

theorem step3_cons (c : Char) (v : List Char) (hc : ¬(c = '\n')) :
    step3 (c :: v) = pyStrip (c :: v.takeWhile notNl) ++
      (match v.dropWhile notNl with | [] => [] | _ :: w => '\n' :: step3 w) := by
  have ht : notNl c = true := by simp [notNl, hc]
  unfold step3
  rw [splitNl_eq (c :: v)]
  rw [List.takeWhile_cons, List.dropWhile_cons]
  simp only [ht, if_true]
  cases hd : v.dropWhile notNl with
  | nil =>
    simp only [List.map_cons, List.map_nil]
    show joinNl [pyStrip (c :: v.takeWhile notNl)] = _
    simp [joinNl]
  | cons d w =>
    simp only [List.map_cons]
    rw [joinNl_cons _ _ (by simp [splitNl_ne_nil w])]

/- ========== strip head / tail facts ========== -/

theorem dropWhile_head_false (p : Char → Bool) :
    ∀ (l : List Char) (c : Char) (t : List Char),
      l.dropWhile p = c :: t → p c = false := by
  intro l
  induction l with
  | nil => intro c t h; simp at h
  | cons a l ih =>
    intro c t h
    rw [List.dropWhile_cons] at h
    by_cases hp : p a = true
    · exact ih c t (by simpa [hp] using h)
    · have hpa : p a = false := by simpa using hp
      have : a = c := by simp [hpa] at h; exact h.1
      rw [← this]
      exact hpa

theorem lstrip_decomp (x : List Char) : ∃ p, x = p ++ lstrip x := by
  obtain ⟨t, ht⟩ := @List.dropWhile_suffix _ x pyWS
  exact ⟨t, ht.symm⟩

theorem rstrip_decomp (x : List Char) : ∃ q, x = rstrip x ++ q := by
  obtain ⟨t, ht⟩ := @List.dropWhile_suffix _ x.reverse pyWS
  refine ⟨t.reverse, ?_⟩
  have h2 := congrArg List.reverse ht
  simpa [rstrip] using h2.symm

theorem pyStrip_decomp (x : List Char) : ∃ p q, x = p ++ pyStrip x ++ q := by
  obtain ⟨p, hp⟩ := lstrip_decomp x
  obtain ⟨q, hq⟩ := rstrip_decomp (lstrip x)
  refine ⟨p, q, ?_⟩
  rw [List.append_assoc]
  show x = p ++ (rstrip (lstrip x) ++ q)
  rw [← hq, ← hp]

theorem pyStrip_subset (x : List Char) : ∀ c ∈ pyStrip x, c ∈ x := by
  obtain ⟨p, q, h⟩ := pyStrip_decomp x
  intro c hc
  rw [h]
  simp only [List.mem_append]
  exact Or.inl (Or.inr hc)

theorem pyStrip_head_false (l : List Char) (c : Char) (t : List Char)
    (h : pyStrip l = c :: t) : pyWS c = false := by
  obtain ⟨q, hq⟩ := rstrip_decomp (lstrip l)
  have hl : lstrip l = c :: (t ++ q) := by
    rw [hq]
    show rstrip (lstrip l) ++ q = _
    rw [show rstrip (lstrip l) = pyStrip l from rfl, h]
    rfl
  exact dropWhile_head_false pyWS l c (t ++ q) hl

theorem pyStrip_getLast_false (l : List Char) (c : Char)
    (h : (pyStrip l).getLast? = some c) : pyWS c = false := by
  have h2 : ((lstrip l).reverse.dropWhile pyWS).reverse.getLast? = some c := h
  rw [List.getLast?_reverse] at h2
  cases hd : (lstrip l).reverse.dropWhile pyWS with
  | nil => rw [hd] at h2; simp at h2
  | cons a r =>
    rw [hd] at h2
    have : a = c := by simpa using h2
    rw [← this]
    exact dropWhile_head_false pyWS (lstrip l).reverse a r hd

theorem lstrip_eq_self (l : List Char)
    (h : ∀ c, l.head? = some c → pyWS c = false) : lstrip l = l := by
  cases l with
  | nil => rfl
  | cons a t =>
    have := h a rfl
    simp [lstrip, List.dropWhile_cons, this]

theorem rstrip_eq_self (l : List Char)
    (h : ∀ c, l.getLast? = some c → pyWS c = false) : rstrip l = l := by
  unfold rstrip
  cases hl : l.reverse with
  | nil =>
    have : l = [] := by simpa using congrArg List.reverse hl
    subst this; rfl
  | cons a r =>
    have ha : l.getLast? = some a := by
      rw [← List.head?_reverse, hl]; rfl
    have := h a ha
    rw [List.dropWhile_cons]
    simp only [this, Bool.false_eq_true, if_false]
    rw [← hl, List.reverse_reverse]

theorem pyStrip_eq_self (l : List Char)
    (hh : ∀ c, l.head? = some c → pyWS c = false)
    (hl : ∀ c, l.getLast? = some c → pyWS c = false) : pyStrip l = l := by
  unfold pyStrip
  rw [lstrip_eq_self l hh, rstrip_eq_self l hl]

theorem pyStrip_nil_all_ws (l : List Char) (h : pyStrip l = []) :
    ∀ c ∈ l, pyWS c = true := by
  have h2 : (lstrip l).reverse.dropWhile pyWS = [] := by
    have h3 : ((lstrip l).reverse.dropWhile pyWS).reverse = [] := h
    simpa using h3
  have h4 : ∀ c ∈ (lstrip l).reverse, pyWS c = true :=
    List.dropWhile_eq_nil_iff.mp h2
  intro c hc
  have hsplit := List.takeWhile_append_dropWhile pyWS l
  rw [← hsplit] at hc
  rcases List.mem_append.mp hc with hc | hc
  · exact List.mem_takeWhile_imp hc
  · exact h4 c (by simpa using hc)

/- ========== step 1 fixed points ========== -/

theorem step1_head : ∀ (r : List Char) (c : Char),
    (step1 (c :: r)).head? = some (if spTab c then ' ' else c) := by
  intro r
  induction r with
  | nil =>
    intro c
    by_cases h : spTab c <;> simp [step1, h]
  | cons c2 r2 ih =>
    intro c
    rw [step1]
    by_cases h1 : spTab c
    · by_cases h2 : spTab c2
      · rw [if_pos (by simp [h1, h2])]
        rw [ih c2]
        simp [h1, h2]
      · rw [if_neg (by simp [h2]), if_pos (by simp [h1])]
        simp [h1]
    · rw [if_neg (by simp [h1]), if_neg (by simp [h1])]
      simp [h1]

/-- Fixed lists are left unchanged by step 1. -/
theorem step1_fix (l : List Char) (h : step1Fixed l = true) : step1 l = l := by
  induction l with
  | nil => rfl
  | cons c l ih =>
    have hct : ¬(c = '\t') := by
      simp only [step1Fixed, Bool.and_eq_true, List.all_cons] at h
      simpa using h.1.1
    have htl : step1Fixed l = true := step1Fixed_tail c l h
    cases l with
    | nil =>
      rw [step1]
      by_cases hsp : spTab c = true
      · have hcsp : c = ' ' := by
          simp [spTab, hct] at hsp
          exact hsp
        rw [if_pos hsp, hcsp]
      · rw [if_neg hsp]
    | cons c2 l2 =>
      have hpair : spPairOK c c2 = true := by
        simp only [step1Fixed, Bool.and_eq_true] at h
        exact ((pairsOK_cons spPairOK c (c2 :: l2)).mp h.2).1 c2 rfl
      rw [step1]
      by_cases hsp : spTab c = true
      · have hsp2 : spTab c2 = false := by
          cases hq : spTab c2
          · rfl
          · exfalso
            simp [spPairOK, hsp, hq] at hpair
        rw [if_neg (by simp [hsp2]), if_pos hsp]
        have hcsp : c = ' ' := by
          simp [spTab, hct] at hsp
          exact hsp
        rw [ih htl, hcsp]
      · have hspf : spTab c = false := by simpa using hsp
        rw [if_neg (by simp [hspf]), if_neg hsp]
        rw [ih htl]

/-- step 1 produces a fixed list. -/
theorem step1_fixed_output : ∀ l : List Char, step1Fixed (step1 l) = true := by
  intro l
  induction l with
  | nil => rfl
  | cons c l ih =>
    cases l with
    | nil =>
      rw [step1]
      by_cases hsp : spTab c = true
      · rw [if_pos hsp]; decide
      · rw [if_neg hsp]
        have hct : ¬(c = '\t') := fun he => hsp (by simp [spTab, he])
        simp [step1Fixed, pairsOK, hct]
    | cons c2 l2 =>
      rw [step1]
      by_cases h12 : (spTab c && spTab c2) = true
      · rw [if_pos h12]; exact ih
      · rw [if_neg h12]
        by_cases h1 : spTab c = true
        · rw [if_pos h1]
          have h2 : spTab c2 = false := by
            cases hq : spTab c2
            · rfl
            · exact absurd (by simp [h1, hq]) h12
          simp only [step1Fixed, Bool.and_eq_true, List.all_cons] at ih ⊢
          refine ⟨⟨by decide, ih.1⟩, ?_⟩
          apply (pairsOK_cons spPairOK ' ' _).mpr
          refine ⟨?_, ih.2⟩
          intro b hb
          have hh := step1_head l2 c2
          rw [hh] at hb
          have hbc : (if spTab c2 then ' ' else c2) = b := by simpa using hb
          rw [← hbc]
          simp [spPairOK, h2]
        · rw [if_neg h1]
          have h1f : spTab c = false := by simpa using h1
          simp only [step1Fixed, Bool.and_eq_true, List.all_cons] at ih ⊢
          have hct : ¬(c = '\t') := fun he => by simp [spTab, he] at h1f
          refine ⟨⟨by simpa using hct, ih.1⟩, ?_⟩
          apply pairsOK_cons_of_safe
          · intro b; simp [spPairOK, h1f]
          · exact ih.2

/- ========== step 2 fixed points ========== -/

theorem step2Go_head : ∀ (fuel : Nat) (l : List Char),
    (step2Go fuel l).head? = l.head? := by
  intro fuel l
  cases fuel with
  | zero => rfl
  | succ fuel =>
    cases l with
    | nil => rfl
    | cons c rest =>
      rw [step2Go]
      by_cases hg : (decide (c = '\n') &&
          decide (((c :: rest).takeWhile pyWS).count '\n' ≥ 3)) = true
      · rw [if_pos hg]
        have hc : c = '\n' := by
          have := (Bool.and_eq_true ..).mp hg
          simpa using this.1
        rw [hc]
        rfl
      · rw [if_neg hg]
        rfl

theorem takeWhile_pyWS_cons_nl (rest : List Char) :
    ('\n' :: rest).takeWhile pyWS = '\n' :: rest.takeWhile pyWS := by
  rw [List.takeWhile_cons]
  simp [pyWS]

theorem count_nl_cons (c : Char) (l : List Char) :
    (c :: l).count '\n' = l.count '\n' + (if c = '\n' then 1 else 0) := by
  by_cases h : c = '\n' <;> simp [List.count_cons, h]

/-- Lists with all whitespace runs short are unchanged by step 2. -/
theorem step2_fix : ∀ (fuel : Nat) (l : List Char),
    step2Fixed l = true → step2Go fuel l = l := by
  intro fuel
  induction fuel with
  | zero => intro l _; rfl
  | succ fuel ih =>
    intro l h
    cases l with
    | nil => rfl
    | cons c rest =>
      have hcond := ((Bool.and_eq_true ..).mp h).1
      have htl : step2Fixed rest = true := step2Fixed_tail c rest h
      rw [step2Go]
      by_cases hc : c = '\n'
      · have hlt : ((c :: rest).takeWhile pyWS).count '\n' < 3 := by
          rcases (Bool.or_eq_true ..).mp hcond with h1 | h1
          · exfalso; simp [hc] at h1
          · simpa using h1
        rw [if_neg (by simp [Nat.not_le.mpr hlt])]
        rw [ih rest htl]
      · rw [if_neg (by simp [hc])]
        rw [ih rest htl]

/-- step 2 does not alter a leading whitespace run that carries fewer
than three newlines. -/
theorem step2Go_takeWhile : ∀ (fuel : Nat) (l : List Char),
    (l.takeWhile pyWS).count '\n' < 3 →
    (step2Go fuel l).takeWhile pyWS = l.takeWhile pyWS := by
  intro fuel
  induction fuel with
  | zero => intro l _; rfl
  | succ fuel ih =>
    intro l hlt
    cases l with
    | nil => rfl
    | cons c rest =>
      by_cases hw : pyWS c = true
      · by_cases hc : c = '\n'
        · subst hc
          rw [step2Go, if_neg (by simp [Nat.not_le.mpr hlt])]
          rw [takeWhile_pyWS_cons_nl] at hlt ⊢
          rw [count_nl_cons] at hlt
          have hrest : (rest.takeWhile pyWS).count '\n' < 3 := by
            simp at hlt; omega
          rw [takeWhile_pyWS_cons_nl, ih rest hrest]
        · rw [step2Go, if_neg (by simp [hc])]
          rw [List.takeWhile_cons, if_pos hw] at hlt ⊢
          have hcount : ((rest.takeWhile pyWS).count '\n') < 3 := by
            rw [count_nl_cons] at hlt
            omega
          rw [List.takeWhile_cons, if_pos hw, ih rest hcount]
      · have hc : ¬(c = '\n') := fun he => by simp [he, pyWS] at hw
        rw [step2Go, if_neg (by simp [hc])]
        rw [List.takeWhile_cons, if_neg hw, List.takeWhile_cons, if_neg hw]

theorem afterLastNl_decomp (run : List Char) :
    ∃ p, run = p ++ afterLastNl run ∧ p.length = run.length - (afterLastNl run).length := by
  have hsplit := List.takeWhile_append_dropWhile
    (fun c => decide (c ≠ '\n')) run.reverse
  refine ⟨(run.reverse.dropWhile (fun c => decide (c ≠ '\n'))).reverse, ?_, ?_⟩
  · have h2 := congrArg List.reverse hsplit
    rw [List.reverse_append] at h2
    calc run = run.reverse.reverse := (List.reverse_reverse run).symm
    _ = _ := by rw [← h2]; rfl
  · have hlen := congrArg List.length hsplit
    simp only [List.length_append, List.length_reverse] at hlen ⊢
    have h3 : (afterLastNl run).length =
        (run.reverse.takeWhile (fun c => decide (c ≠ '\n'))).length := by
      simp [afterLastNl]
    omega

theorem afterLastNl_no_nl (run : List Char) :
    ∀ c ∈ afterLastNl run, ¬(c = '\n') := by
  intro c hc
  have : c ∈ run.reverse.takeWhile (fun c => decide (c ≠ '\n')) := by
    simpa [afterLastNl] using hc
  simpa using List.mem_takeWhile_imp this

theorem takeWhile_len_lt_of_mem_nl (l : List Char) (h : '\n' ∈ l) :
    (l.takeWhile (fun c => decide (c ≠ '\n'))).length < l.length := by
  induction l with
  | nil => simp at h
  | cons c rest ih =>
    rw [List.takeWhile_cons]
    by_cases hc : c = '\n'
    · rw [if_neg (by simp [hc])]
      simp
    · rw [if_pos (by simp [hc])]
      have hr : '\n' ∈ rest := by
        rcases List.mem_cons.mp h with he | he
        · exact absurd he.symm hc
        · exact he
      simpa using Nat.succ_lt_succ (ih hr)

theorem takeWhile_append_all (p : Char → Bool) :
    ∀ xs ys : List Char, (∀ x ∈ xs, p x = true) →
    (xs ++ ys).takeWhile p = xs ++ ys.takeWhile p := by
  intro xs
  induction xs with
  | nil => intro ys _; rfl
  | cons a xs ih =>
    intro ys h
    rw [List.cons_append, List.takeWhile_cons, if_pos (h a (by simp))]
    rw [ih ys (fun x hx => h x (List.mem_cons_of_mem _ hx)), List.cons_append]

theorem drop_matchLen (l : List Char) :
    l.drop (matchLen l) = afterLastNl (l.takeWhile pyWS) ++ l.dropWhile pyWS := by
  obtain ⟨p, hp, hplen⟩ := afterLastNl_decomp (l.takeWhile pyWS)
  have hm : matchLen l = p.length := by rw [matchLen, ← hplen]
  have hsplit : l = l.takeWhile pyWS ++ l.dropWhile pyWS :=
    (List.takeWhile_append_dropWhile ..).symm
  calc l.drop (matchLen l)
      = (l.takeWhile pyWS ++ l.dropWhile pyWS).drop p.length := by
        rw [hm, ← hsplit]
  _ = ((p ++ afterLastNl (l.takeWhile pyWS)) ++ l.dropWhile pyWS).drop p.length := by
        rw [← hp]
  _ = afterLastNl (l.takeWhile pyWS) ++ l.dropWhile pyWS := by
        rw [List.append_assoc]
        exact List.drop_left _ _

theorem takeWhile_drop_matchLen (l : List Char) :
    ((l.drop (matchLen l)).takeWhile pyWS).count '\n' = 0 := by
  rw [drop_matchLen]
  have hall : ∀ x ∈ afterLastNl (l.takeWhile pyWS), pyWS x = true := by
    obtain ⟨p, hp, -⟩ := afterLastNl_decomp (l.takeWhile pyWS)
    intro x hx
    have : x ∈ l.takeWhile pyWS := by rw [hp]; exact List.mem_append_right _ hx
    exact List.mem_takeWhile_imp this
  rw [takeWhile_append_all pyWS _ _ hall]
  have hdw : (l.dropWhile pyWS).takeWhile pyWS = [] := by
    cases hd : l.dropWhile pyWS with
    | nil => rfl
    | cons a t =>
      rw [List.takeWhile_cons, if_neg ?_]
      rw [dropWhile_head_false pyWS l a t hd]
      simp
  rw [hdw, List.append_nil]
  rw [List.count_eq_zero]
  intro hmem
  exact afterLastNl_no_nl _ '\n' hmem rfl

theorem matchLen_pos (l : List Char) (h3 : 3 ≤ (l.takeWhile pyWS).count '\n') :
    1 ≤ matchLen l := by
  have hmem : '\n' ∈ l.takeWhile pyWS := by
    have : 0 < (l.takeWhile pyWS).count '\n' := by omega
    exact List.count_pos_iff.mp this
  have hmemr : '\n' ∈ (l.takeWhile pyWS).reverse := List.mem_reverse.mpr hmem
  have hlt := takeWhile_len_lt_of_mem_nl _ hmemr
  have hlen : (afterLastNl (l.takeWhile pyWS)).length =
      ((l.takeWhile pyWS).reverse.takeWhile (fun c => decide (c ≠ '\n'))).length := by
    simp [afterLastNl]
  rw [matchLen]
  rw [hlen]
  simp only [List.length_reverse] at hlt ⊢
  omega

/-- step 2 produces a fixed list when given enough fuel. -/
theorem step2_fixed_output : ∀ (fuel : Nat) (l : List Char), l.length ≤ fuel →
    step2Fixed (step2Go fuel l) = true := by
  intro fuel
  induction fuel with
  | zero =>
    intro l hl
    have : l = [] := List.length_eq_zero.mp (by omega)
    subst this; rfl
  | succ fuel ih =>
    intro l hl
    cases l with
    | nil => rfl
    | cons c rest =>
      rw [step2Go]
      by_cases hg : (decide (c = '\n') &&
          decide (((c :: rest).takeWhile pyWS).count '\n' ≥ 3)) = true
      · rw [if_pos hg]
        have h3 : 3 ≤ ((c :: rest).takeWhile pyWS).count '\n' := by
          simpa using ((Bool.and_eq_true ..).mp hg).2
        have hdlen : ((c :: rest).drop (matchLen (c :: rest))).length ≤ fuel := by
          have hm := matchLen_pos (c :: rest) h3
          rw [List.length_drop]
          simp only [List.length_cons] at hl ⊢
          omega
        have hcnt := takeWhile_drop_matchLen (c :: rest)
        have hfix := ih _ hdlen
        have htw := step2Go_takeWhile fuel ((c :: rest).drop (matchLen (c :: rest)))
          (by omega)
        simp only [step2Fixed, Bool.and_eq_true]
        refine ⟨?_, ?_, hfix⟩
        · rw [takeWhile_pyWS_cons_nl, takeWhile_pyWS_cons_nl, htw]
          rw [count_nl_cons, count_nl_cons, hcnt]
          simp
        · rw [takeWhile_pyWS_cons_nl, htw]
          rw [count_nl_cons, hcnt]
          simp
      · rw [if_neg hg]
        have hrest : step2Fixed (step2Go fuel rest) = true :=
          ih rest (by simp only [List.length_cons] at hl; omega)
        simp only [step2Fixed, Bool.and_eq_true]
        refine ⟨?_, hrest⟩
        by_cases hc : c = '\n'
        · subst hc
          have hlt : ((('\n' : Char) :: rest).takeWhile pyWS).count '\n' < 3 := by
            by_contra hcon
            exact hg (by simp; omega)
          rw [takeWhile_pyWS_cons_nl, count_nl_cons] at hlt
          simp only [if_pos rfl] at hlt
          have hrlt : (rest.takeWhile pyWS).count '\n' < 3 := by omega
          rw [takeWhile_pyWS_cons_nl, step2Go_takeWhile fuel rest hrlt]
          rw [count_nl_cons]
          simp only [if_pos rfl]
          simp at hlt ⊢
          omega
        · simp [hc]

/-- Lists without whitespace padding and without triple newlines are
step2-fixed. -/
theorem step2Fixed_of_pads : ∀ l : List Char, noWsPad l = true →
    noTripleNl l = true → step2Fixed l = true := by
  intro l
  induction l with
  | nil => intro _ _; rfl
  | cons c rest ih =>
    intro hw ht
    simp only [step2Fixed, Bool.and_eq_true]
    refine ⟨?_, ih (pairsOK_tail _ c rest hw) (triplesOK_tail _ c rest ht)⟩
    by_cases hc : c = '\n'
    · subst hc
      suffices hcc : ((('\n' : Char) :: rest).takeWhile pyWS).count '\n' < 3 by
        simp [hcc]
      rw [takeWhile_pyWS_cons_nl, count_nl_cons]
      simp only [if_pos rfl]
      cases rest with
      | nil => simp
      | cons b r2 =>
        by_cases hwb : pyWS b = true
        · have hb : b = '\n' := by
            have hpair := ((pairsOK_cons wsPadOK '\n' (b :: r2)).mp hw).1 b rfl
            by_contra hbn
            simp [wsPadOK, hwb, hbn] at hpair
          subst hb
          rw [takeWhile_pyWS_cons_nl, count_nl_cons]
          simp only [if_pos rfl]
          cases r2 with
          | nil => simp
          | cons e r3 =>
            by_cases hwe : pyWS e = true
            · exfalso
              have hpair2 := ((pairsOK_cons wsPadOK '\n' (e :: r3)).mp
                (pairsOK_tail wsPadOK '\n' ('\n' :: e :: r3) hw)).1 e rfl
              have he : e = '\n' := by
                by_contra hen
                simp [wsPadOK, hwe, hen] at hpair2
              have htrip := ((triplesOK_cons nlTriple '\n' ('\n' :: e :: r3)).mp
                ht).1 '\n' e rfl rfl
              rw [he] at htrip
              simp [nlTriple] at htrip
            · rw [List.takeWhile_cons, if_neg (by simpa using hwe)]
              simp
        · rw [List.takeWhile_cons, if_neg (by simpa using hwb)]
          simp
    · simp [hc]

/- ========== predicate transport along the pipeline ========== -/

theorem step1Fixed_drop (l : List Char) (n : Nat)
    (h : step1Fixed l = true) : step1Fixed (l.drop n) = true := by
  obtain ⟨p, hp⟩ := List.drop_suffix n l
  exact step1Fixed_append_right p _ (by rw [hp]; exact h)

/-- step 2 keeps step-1 fixedness. -/
theorem step2Go_step1Fixed : ∀ (fuel : Nat) (l : List Char),
    step1Fixed l = true → step1Fixed (step2Go fuel l) = true := by
  intro fuel
  induction fuel with
  | zero => intro l h; exact h
  | succ fuel ih =>
    intro l h
    cases l with
    | nil => rfl
    | cons c rest =>
      rw [step2Go]
      by_cases hg : (decide (c = '\n') &&
          decide (((c :: rest).takeWhile pyWS).count '\n' ≥ 3)) = true
      · rw [if_pos hg]
        have hd : step1Fixed ((c :: rest).drop (matchLen (c :: rest))) = true :=
          step1Fixed_drop _ _ h
        have hfix := ih _ hd
        simp only [step1Fixed, Bool.and_eq_true, List.all_cons] at hfix ⊢
        refine ⟨⟨by decide, by decide, hfix.1⟩, ?_⟩
        apply pairsOK_cons_of_safe _ _ _ (fun b => by simp [spPairOK, spTab])
        apply pairsOK_cons_of_safe _ _ _ (fun b => by simp [spPairOK, spTab])
        exact hfix.2
      · rw [if_neg hg]
        have htl : step1Fixed rest = true := step1Fixed_tail c rest h
        have hfix := ih rest htl
        simp only [step1Fixed, Bool.and_eq_true, List.all_cons] at hfix h ⊢
        refine ⟨⟨h.1.1, hfix.1⟩, ?_⟩
        apply (pairsOK_cons spPairOK c _).mpr
        refine ⟨?_, hfix.2⟩
        intro b hb
        rw [step2Go_head fuel rest] at hb
        exact ((pairsOK_cons spPairOK c rest).mp h.2).1 b hb

theorem step1Fixed_pyStrip (l : List Char) (h : step1Fixed l = true) :
    step1Fixed (pyStrip l) = true := by
  obtain ⟨p, q, hpq⟩ := pyStrip_decomp l
  rw [hpq] at h
  exact step1Fixed_append_left _ q
    (step1Fixed_append_right p _ (by rwa [← List.append_assoc]))

theorem noWsPad_pyStrip (l : List Char) (h : noWsPad l = true) :
    noWsPad (pyStrip l) = true := by
  obtain ⟨p, q, hpq⟩ := pyStrip_decomp l
  rw [hpq] at h
  exact pairsOK_append_left _ _ q
    (pairsOK_append_right _ p _ (by rwa [← List.append_assoc]))

theorem noTripleNl_pyStrip (l : List Char) (h : noTripleNl l = true) :
    noTripleNl (pyStrip l) = true := by
  obtain ⟨p, q, hpq⟩ := pyStrip_decomp l
  rw [hpq] at h
  exact triplesOK_append_left _ _ q
    (triplesOK_append_right _ p _ (by rwa [← List.append_assoc]))

theorem leadNl_cons_nl (S : List Char) : leadNl ('\n' :: S) = leadNl S + 1 := by
  unfold leadNl
  rw [List.takeWhile_cons]
  simp

theorem leadNl_cons_not_nl (c : Char) (S : List Char) (h : ¬(c = '\n')) :
    leadNl (c :: S) = 0 := by
  unfold leadNl
  rw [List.takeWhile_cons]
  simp [h]

/-- Gluing a newline-free piece, a newline and a tail with at most one
leading newline cannot create a triple newline. -/
theorem noTripleNl_cat : ∀ (P : List Char), ∀ S : List Char,
    (∀ c ∈ P, ¬(c = '\n')) → noTripleNl S = true → leadNl S ≤ 1 →
    noTripleNl (P ++ '\n' :: S) = true := by
  intro P
  induction P with
  | nil =>
    intro S _ hS hlead
    rw [List.nil_append]
    cases S with
    | nil => rfl
    | cons s0 S1 =>
      cases S1 with
      | nil => rfl
      | cons s1 S2 =>
        apply (triplesOK_cons nlTriple '\n' (s0 :: s1 :: S2)).mpr
        refine ⟨?_, hS⟩
        intro b c hb hc
        have hbs : s0 = b := by simpa using hb
        have hcs : s1 = c := by simpa using hc
        rw [← hbs, ← hcs]
        by_cases h0 : s0 = '\n'
        · by_cases h1 : s1 = '\n'
          · exfalso
            subst h0; subst h1
            rw [leadNl_cons_nl, leadNl_cons_nl] at hlead
            omega
          · simp [nlTriple, h1]
        · simp [nlTriple, h0]
  | cons p P ih =>
    intro S hP hS hlead
    rw [List.cons_append]
    apply triplesOK_cons_of_safe
    · intro b c
      have hp : ¬(p = '\n') := hP p (by simp)
      simp [nlTriple, hp]
    · exact ih S (fun c hc => hP c (List.mem_cons_of_mem _ hc)) hS hlead

/- ========== step 3 building blocks ========== -/

theorem wsPadOK_nl_left (b : Char) : wsPadOK '\n' b = (!(pyWS b) || b = '\n') := by
  by_cases hb : b = '\n'
  · subst hb; decide
  · by_cases hw : pyWS b = true <;> simp [wsPadOK, hb, hw]

theorem headOK_of_noWsPad_nl (S : List Char)
    (h : noWsPad ('\n' :: S) = true) : headOK S = true := by
  cases S with
  | nil => rfl
  | cons b t =>
    have hp := ((pairsOK_cons wsPadOK '\n' (b :: t)).mp h).1 b rfl
    show (!(pyWS b) || b = '\n') = true
    rw [← wsPadOK_nl_left]
    exact hp

theorem noWsPad_cons_nl (S : List Char) (hh : headOK S = true)
    (hS : noWsPad S = true) : noWsPad ('\n' :: S) = true := by
  apply (pairsOK_cons wsPadOK '\n' S).mpr
  refine ⟨?_, hS⟩
  intro b hb
  rw [wsPadOK_nl_left]
  cases S with
  | nil => simp at hb
  | cons s t =>
    have hs : s = b := by simpa using hb
    subst hs
    exact hh

theorem lastOK_cons_eq (a b : Char) (t : List Char) :
    lastOK (a :: b :: t) = lastOK (b :: t) := by
  unfold lastOK
  rw [List.getLast?_cons_cons]

theorem lastOK_cons (a : Char) (S : List Char)
    (ha : (!(pyWS a) || a = '\n') = true) (hS : lastOK S = true) :
    lastOK (a :: S) = true := by
  cases S with
  | nil => simp [lastOK, ha]
  | cons b t => rw [lastOK_cons_eq]; exact hS

theorem lastOK_tail (a : Char) (S : List Char)
    (h : lastOK (a :: S) = true) : lastOK S = true := by
  cases S with
  | nil => rfl
  | cons b t => rw [lastOK_cons_eq] at h; exact h

theorem lastOK_append_nonnil (P S : List Char) (hS : S ≠ [])
    (h : lastOK S = true) : lastOK (P ++ S) = true := by
  unfold lastOK at h ⊢
  rw [List.getLast?_append]
  cases hs : S.getLast? with
  | none => exact absurd (List.getLast?_eq_none_iff.mp hs) hS
  | some c =>
    rw [hs] at h
    rw [Option.or_some]
    exact h

theorem headOK_strip (l : List Char) : headOK (pyStrip l) = true := by
  cases hp : pyStrip l with
  | nil => rfl
  | cons p t =>
    have := pyStrip_head_false l p t hp
    simp [headOK, this]

theorem lastOK_strip (l : List Char) : lastOK (pyStrip l) = true := by
  unfold lastOK
  cases hg : (pyStrip l).getLast? with
  | none => rfl
  | some a =>
    have := pyStrip_getLast_false l a hg
    simp [this]

theorem headOK_strip_append (l rest : List Char) (hrest : headOK rest = true) :
    headOK (pyStrip l ++ rest) = true := by
  cases hp : pyStrip l with
  | nil => simpa using hrest
  | cons p t =>
    have := pyStrip_head_false l p t hp
    rw [List.cons_append]
    simp [headOK, this]

theorem noWsPad_strip_append_nl (l S : List Char)
    (hP : ∀ x ∈ pyStrip l, ¬(x = '\n'))
    (hh : headOK S = true) (hS : noWsPad S = true) :
    noWsPad (pyStrip l ++ '\n' :: S) = true := by
  apply pairsOK_append wsPadOK _ _ (noWsPad_of_noNl _ hP)
    (noWsPad_cons_nl S hh hS)
  intro a b ha hb
  have hb2 : '\n' = b := by simpa using hb
  rw [← hb2]
  have haw : pyWS a = false := pyStrip_getLast_false l a ha
  simp [wsPadOK, haw]

theorem strip_line_noNl (c : Char) (w : List Char) (hc : ¬(c = '\n')) :
    ∀ x ∈ pyStrip (c :: w.takeWhile notNl), ¬(x = '\n') := by
  intro x hx
  have hmem := pyStrip_subset _ x hx
  rcases List.mem_cons.mp hmem with h | h
  · rw [h]; exact hc
  · have := List.mem_takeWhile_imp h
    simpa [notNl] using this

theorem step1Fixed_append_nl (xs S : List Char)
    (hx : step1Fixed xs = true) (hS : step1Fixed S = true) :
    step1Fixed (xs ++ '\n' :: S) = true := by
  simp only [step1Fixed, Bool.and_eq_true] at hx hS ⊢
  constructor
  · simp [List.all_append, List.all_cons, hx.1, hS.1]
  · apply pairsOK_append _ _ _ hx.2
    · exact pairsOK_cons_of_safe _ _ _ (fun b => by simp [spPairOK, spTab]) hS.2
    · intro a b ha hb
      have hb2 : '\n' = b := by simpa using hb
      rw [← hb2]
      simp [spPairOK, spTab]

/-- step 3 output has no whitespace padding around newlines and its
first and last characters are newlines or non-whitespace. -/
theorem step3_pads : ∀ (n : Nat) (v : List Char), v.length ≤ n →
    noWsPad (step3 v) = true ∧ headOK (step3 v) = true ∧
      lastOK (step3 v) = true := by
  intro n
  induction n with
  | zero =>
    intro v hv
    have hnil : v = [] := List.eq_nil_of_length_eq_zero (Nat.le_zero.mp hv)
    subst hnil
    exact ⟨rfl, rfl, rfl⟩
  | succ n ih =>
    intro v hv
    cases v with
    | nil => exact ⟨rfl, rfl, rfl⟩
    | cons c w =>
      by_cases hc : c = '\n'
      · subst hc
        rw [step3_cons_nl]
        have hw : w.length ≤ n := by simp at hv; omega
        obtain ⟨h1, h2, h3⟩ := ih w hw
        exact ⟨noWsPad_cons_nl _ h2 h1, rfl, lastOK_cons '\n' (step3 w) rfl h3⟩
      · rw [step3_cons c w hc]
        have hax := strip_line_noNl c w hc
        cases hd : w.dropWhile notNl with
        | nil =>
          simp only [hd, List.append_nil]
          exact ⟨noWsPad_of_noNl _ hax, headOK_strip _, lastOK_strip _⟩
        | cons d u =>
          simp only [hd]
          have hlen : u.length ≤ n := by
            have hsplit := List.takeWhile_append_dropWhile notNl w
            rw [hd] at hsplit
            have hlw := congrArg List.length hsplit
            simp at hlw hv
            omega
          obtain ⟨h1, h2, h3⟩ := ih u hlen
          refine ⟨noWsPad_strip_append_nl _ _ hax h2 h1,
            headOK_strip_append _ _ rfl, ?_⟩
          exact lastOK_append_nonnil _ ('\n' :: step3 u) (by simp)
            (lastOK_cons '\n' _ rfl h3)

/-- On step-2-fixed input, step 3 creates no run of three newlines, and
its output has at most as many leading newlines as the input whitespace
run holds. -/
theorem step3_noTriple : ∀ (n : Nat) (v : List Char), v.length ≤ n →
    step2Fixed v = true →
    noTripleNl (step3 v) = true ∧
      leadNl (step3 v) ≤ (v.takeWhile pyWS).count '\n' := by
  intro n
  induction n with
  | zero =>
    intro v hv _
    have hnil : v = [] := List.eq_nil_of_length_eq_zero (Nat.le_zero.mp hv)
    subst hnil
    exact ⟨rfl, Nat.le_refl 0⟩
  | succ n ih =>
    intro v hv h2f
    cases v with
    | nil => exact ⟨rfl, Nat.le_refl 0⟩
    | cons c w =>
      by_cases hc : c = '\n'
      · subst hc
        rw [step3_cons_nl]
        have h2w : step2Fixed w = true := step2Fixed_tail _ _ h2f
        have hw : w.length ≤ n := by simp at hv; omega
        obtain ⟨h1, hle⟩ := ih w hw h2w
        have hhead : (('\n' :: w).takeWhile pyWS).count '\n' < 3 := by
          simp only [step2Fixed, Bool.and_eq_true] at h2f
          simpa using h2f.1
        rw [takeWhile_pyWS_cons_nl, count_nl_cons] at hhead
        simp at hhead
        constructor
        · apply (triplesOK_cons nlTriple '\n' (step3 w)).mpr
          refine ⟨?_, h1⟩
          intro b cc hb hcc
          by_cases hbn : b = '\n'
          · by_cases hcn : cc = '\n'
            · exfalso
              cases hsw : step3 w with
              | nil => rw [hsw] at hb; simp at hb
              | cons x xs =>
                cases xs with
                | nil => rw [hsw] at hcc; simp at hcc
                | cons y ys =>
                  rw [hsw] at hb hcc
                  have hxb : x = b := by simpa using hb
                  have hyc : y = cc := by simpa using hcc
                  have h2 : 2 ≤ leadNl (step3 w) := by
                    rw [hsw, hxb, hyc, hbn, hcn]
                    rw [leadNl_cons_nl, leadNl_cons_nl]
                    omega
                  omega
            · simp [nlTriple, hcn]
          · simp [nlTriple, hbn]
        · rw [leadNl_cons_nl, takeWhile_pyWS_cons_nl, count_nl_cons]
          simp
          omega
      · rw [step3_cons c w hc]
        cases hd : w.dropWhile notNl with
        | nil =>
          simp only [hd, List.append_nil]
          constructor
          · exact noTripleNl_of_noNl _ (strip_line_noNl c w hc)
          · cases hp : pyStrip (c :: w.takeWhile notNl) with
            | nil => exact Nat.zero_le _
            | cons p t =>
              have hph : ¬(p = '\n') :=
                strip_line_noNl c w hc p (by rw [hp]; simp)
              rw [leadNl_cons_not_nl _ _ hph]
              exact Nat.zero_le _
        | cons d u =>
          simp only [hd]
          have hdn : d = '\n' := by
            have := dropWhile_head_false notNl w d u hd
            simpa [notNl] using this
          subst hdn
          have hsplit : w.takeWhile notNl ++ '\n' :: u = w := by
            have := List.takeWhile_append_dropWhile notNl w
            rw [hd] at this
            exact this
          have h2nu : step2Fixed ('\n' :: u) = true := by
            have hvw : step2Fixed w = true := step2Fixed_tail _ _ h2f
            rw [← hsplit] at hvw
            exact step2Fixed_append_right _ _ hvw
          have hcnt : (('\n' :: u).takeWhile pyWS).count '\n' < 3 := by
            simp only [step2Fixed, Bool.and_eq_true] at h2nu
            simpa using h2nu.1
          have h2u : step2Fixed u = true := step2Fixed_tail _ _ h2nu
          have hlen : u.length ≤ n := by
            have hlw := congrArg List.length hsplit
            simp at hlw hv
            omega
          obtain ⟨h1, hle⟩ := ih u hlen h2u
          have hleadu : leadNl (step3 u) ≤ 1 := by
            rw [takeWhile_pyWS_cons_nl, count_nl_cons] at hcnt
            simp at hcnt
            omega
          constructor
          · exact noTripleNl_cat _ _ (strip_line_noNl c w hc) h1 hleadu
          · cases hp : pyStrip (c :: w.takeWhile notNl) with
            | cons p t =>
              have hph : ¬(p = '\n') :=
                strip_line_noNl c w hc p (by rw [hp]; simp)
              rw [List.cons_append, leadNl_cons_not_nl _ _ hph]
              exact Nat.zero_le _
            | nil =>
              rw [List.nil_append, leadNl_cons_nl]
              have hall : ∀ x ∈ c :: w.takeWhile notNl, pyWS x = true :=
                pyStrip_nil_all_ws _ hp
              have hveq : c :: w = (c :: w.takeWhile notNl) ++ '\n' :: u := by
                rw [List.cons_append, hsplit]
              rw [hveq, takeWhile_append_all pyWS _ _ hall, List.count_append]
              have hzero : (c :: w.takeWhile notNl).count '\n' = 0 := by
                apply List.count_eq_zero.mpr
                intro hmem
                rcases List.mem_cons.mp hmem with h | h
                · exact hc h.symm
                · have := List.mem_takeWhile_imp h
                  simp [notNl] at this
              rw [hzero, takeWhile_pyWS_cons_nl, count_nl_cons]
              simp
              omega

/-- step 3 keeps step-1 fixedness. -/
theorem step3_step1Fixed : ∀ (n : Nat) (v : List Char), v.length ≤ n →
    step1Fixed v = true → step1Fixed (step3 v) = true := by
  intro n
  induction n with
  | zero =>
    intro v hv h
    have hnil : v = [] := List.eq_nil_of_length_eq_zero (Nat.le_zero.mp hv)
    subst hnil
    exact h
  | succ n ih =>
    intro v hv h
    cases v with
    | nil => exact h
    | cons c w =>
      by_cases hc : c = '\n'
      · subst hc
        rw [step3_cons_nl]
        have hw : w.length ≤ n := by simp at hv; omega
        have hfix := ih w hw (step1Fixed_tail _ _ h)
        simp only [step1Fixed, Bool.and_eq_true, List.all_cons] at hfix ⊢
        refine ⟨⟨by decide, hfix.1⟩, ?_⟩
        exact pairsOK_cons_of_safe _ _ _
          (fun b => by simp [spPairOK, spTab]) hfix.2
      · rw [step3_cons c w hc]
        have hsplit0 := List.takeWhile_append_dropWhile notNl w
        have hP : step1Fixed (pyStrip (c :: w.takeWhile notNl)) = true := by
          apply step1Fixed_pyStrip
          apply step1Fixed_append_left (c :: w.takeWhile notNl)
            (w.dropWhile notNl)
          rw [List.cons_append, hsplit0]
          exact h
        cases hd : w.dropWhile notNl with
        | nil => simp only [hd, List.append_nil]; exact hP
        | cons d u =>
          simp only [hd]
          have hdn : d = '\n' := by
            have := dropWhile_head_false notNl w d u hd
            simpa [notNl] using this
          subst hdn
          have hsplit : w.takeWhile notNl ++ '\n' :: u = w := by
            rw [← hd]; exact hsplit0
          have hu : step1Fixed u = true := by
            have h2 : step1Fixed ('\n' :: u) = true := by
              apply step1Fixed_append_right (w.takeWhile notNl) ('\n' :: u)
              rw [hsplit]
              exact step1Fixed_tail _ _ h
            exact step1Fixed_tail _ _ h2
          have hlen : u.length ≤ n := by
            have hlw := congrArg List.length hsplit
            simp at hlw hv
            omega
          exact step1Fixed_append_nl _ _ hP (ih u hlen hu)

/-- A text with no whitespace padding around newlines and stripped ends
is unchanged by step 3. -/
theorem step3_fix : ∀ (n : Nat) (t : List Char), t.length ≤ n →
    noWsPad t = true → headOK t = true → lastOK t = true →
    step3 t = t := by
  intro n
  induction n with
  | zero =>
    intro t ht _ _ _
    have hnil : t = [] := List.eq_nil_of_length_eq_zero (Nat.le_zero.mp ht)
    subst hnil
    rfl
  | succ n ih =>
    intro t ht hpad hh hl
    cases t with
    | nil => rfl
    | cons c w =>
      by_cases hc : c = '\n'
      · subst hc
        rw [step3_cons_nl]
        congr 1
        exact ih w (by simp at ht; omega)
          (pairsOK_tail wsPadOK '\n' w hpad)
          (headOK_of_noWsPad_nl w hpad)
          (lastOK_tail '\n' w hl)
      · have hcw : pyWS c = false := by
          have hh2 : (!(pyWS c) || decide (c = '\n')) = true := hh
          simpa [hc] using hh2
        rw [step3_cons c w hc]
        cases hd : w.dropWhile notNl with
        | nil =>
          have hw : w.takeWhile notNl = w := by
            have := List.takeWhile_append_dropWhile notNl w
            rw [hd, List.append_nil] at this
            exact this
          rw [hw, List.append_nil]
          apply pyStrip_eq_self
          · intro x hx
            have hcx : c = x := by simpa using hx
            rw [← hcx]
            exact hcw
          · intro x hx
            have hxin : x ∈ c :: w := List.mem_of_getLast?_eq_some hx
            have hxn : ¬(x = '\n') := by
              rcases List.mem_cons.mp hxin with h | h
              · rw [h]; exact hc
              · rw [← hw] at h
                have := List.mem_takeWhile_imp h
                simpa [notNl] using this
            have hl2 : (!(pyWS x) || decide (x = '\n')) = true := by
              have hl3 := hl
              unfold lastOK at hl3
              rw [hx] at hl3
              exact hl3
            simpa [hxn] using hl2
        | cons d u =>
          have hdn : d = '\n' := by
            have := dropWhile_head_false notNl w d u hd
            simpa [notNl] using this
          subst hdn
          simp only [hd]
          have hsplit : w.takeWhile notNl ++ '\n' :: u = w := by
            have := List.takeWhile_append_dropWhile notNl w
            rw [hd] at this
            exact this
          have hteq : c :: w = (c :: w.takeWhile notNl) ++ '\n' :: u := by
            rw [List.cons_append, hsplit]
          have hPfix : pyStrip (c :: w.takeWhile notNl) =
              c :: w.takeWhile notNl := by
            apply pyStrip_eq_self
            · intro x hx
              have hcx : c = x := by simpa using hx
              rw [← hcx]
              exact hcw
            · intro x hx
              have hpad2 : pairsOK wsPadOK
                  ((c :: w.takeWhile notNl) ++ '\n' :: u) = true := by
                rw [← hteq]
                exact hpad
              have hb := pairsOK_boundary wsPadOK
                (c :: w.takeWhile notNl) '\n' u hpad2 x hx
              have hxn : ¬(x = '\n') := by
                have hxin := List.mem_of_getLast?_eq_some hx
                rcases List.mem_cons.mp hxin with h | h
                · rw [h]; exact hc
                · have := List.mem_takeWhile_imp h
                  simpa [notNl] using this
              simp [wsPadOK, hxn] at hb
              simpa using hb
          have hp2 : pairsOK wsPadOK ('\n' :: u) = true := by
            have hpad2 := hpad
            rw [hteq] at hpad2
            exact pairsOK_append_right wsPadOK _ _ hpad2
          have hlast : lastOK ('\n' :: u) = true := by
            have hl2 := hl
            rw [hteq] at hl2
            unfold lastOK at hl2 ⊢
            rw [List.getLast?_append] at hl2
            cases hg : ('\n' :: u).getLast? with
            | none => simp at hg
            | some a =>
              rw [hg, Option.or_some] at hl2
              exact hl2
          have hwu : step3 u = u := by
            apply ih u ?_ (pairsOK_tail wsPadOK '\n' u hp2)
              (headOK_of_noWsPad_nl u hp2) (lastOK_tail '\n' u hlast)
            have hlw := congrArg List.length hsplit
            simp at hlw ht
            omega
          rw [hPfix, hwu]
          exact hteq.symm

/-- C10: clean_text is idempotent: applied to its own output it changes
nothing, because that output has no space/tab runs, no run of three or
more newlines, no whitespace padding inside lines, and stripped ends. -/
theorem spec_C10_clean_text_idempotent (l : List Char) :
    clean_text (clean_text l) = clean_text l := by
  by_cases hl : l = []
  · subst hl; rfl
  · have hcl : clean_text l = pyStrip (step3 (step2 (step1 l))) := by
      rw [clean_text, if_neg hl]
    have h1a : step1Fixed (step1 l) = true := step1_fixed_output l
    have h1b : step1Fixed (step2 (step1 l)) = true :=
      step2Go_step1Fixed (step1 l).length (step1 l) h1a
    have h1c : step1Fixed (step3 (step2 (step1 l))) = true :=
      step3_step1Fixed (step2 (step1 l)).length _ (Nat.le_refl _) h1b
    have h1T : step1Fixed (clean_text l) = true := by
      rw [hcl]
      exact step1Fixed_pyStrip _ h1c
    obtain ⟨hpadS, hheadS, hlastS⟩ :=
      step3_pads (step2 (step1 l)).length (step2 (step1 l)) (Nat.le_refl _)
    have h2fx : step2Fixed (step2 (step1 l)) = true :=
      step2_fixed_output (step1 l).length (step1 l) (Nat.le_refl _)
    obtain ⟨htriS, _⟩ :=
      step3_noTriple (step2 (step1 l)).length (step2 (step1 l))
        (Nat.le_refl _) h2fx
    have hpadT : noWsPad (clean_text l) = true := by
      rw [hcl]
      exact noWsPad_pyStrip _ hpadS
    have htriT : noTripleNl (clean_text l) = true := by
      rw [hcl]
      exact noTripleNl_pyStrip _ htriS
    have h2T : step2Fixed (clean_text l) = true :=
      step2Fixed_of_pads _ hpadT htriT
    have hheadT : headOK (clean_text l) = true := by
      rw [hcl]
      exact headOK_strip _
    have hlastT : lastOK (clean_text l) = true := by
      rw [hcl]
      exact lastOK_strip _
    by_cases hT : clean_text l = []
    · rw [hT]; rfl
    · rw [clean_text, if_neg hT]
      rw [step1_fix _ h1T]
      rw [show step2 (clean_text l) = clean_text l from
        step2_fix (clean_text l).length _ h2T]
      rw [step3_fix (clean_text l).length _ (Nat.le_refl _) hpadT hheadT
        hlastT]
      rw [hcl]
      exact pyStrip_idem _

end Cortex
